import Mathlib

/-!
Shallow embedding of the Netpbm color raster engine (the `PPM` type and its
operations from the Go source file defining `ReadPPM`, `PPM.Save`, the drawing
primitives, and the resampler), together with proofs of the specification
claims about it.

Modelling conventions:
* Go `uint8` channel values are `Nat`s; the well-formedness predicate `PPM.Wf`
  records the `< 256` range that the Go type enforces structurally.
* Go `int` is `Int`; Go integer division truncates toward zero, which is
  `Int.tdiv`.
* File contents are `List Nat` (byte values).  The byte source feeding the
  decoder is modelled as an in-memory buffer: a `Read(p)` call delivers
  `min (available, len p)` bytes, and `ReadString` scans to the next `\n`.
* Go functions that can only fail by `panic` are modelled as `Option`-valued
  (the panic is the `none` branch); functions returning `error` are modelled
  with `Except`.
* `float64` values that feed integer truncation are modelled as exact
  rationals; the places where this matters are noted at each definition.
-/

/-- RGB pixel, each channel a Go `uint8` (modelled as `Nat`, range in `PPM.Wf`). -/
structure Pixel where
  R : Nat
  G : Nat
  B : Nat
deriving DecidableEq

/-- Integer canvas coordinates, not bounds-checked intrinsically. -/
structure Point where
  X : Int
  Y : Int
deriving DecidableEq

/-- Bytes of the Go string "P3". -/
def magicP3 : List Nat := [80, 51]

/-- Bytes of the Go string "P6". -/
def magicP6 : List Nat := [80, 54]

/-- The in-memory PPM image: `data` is the row-major pixel grid, `magicNumber`
the bytes of the magic-number string, `max` the declared maximum intensity. -/
structure PPM where
  data : List (List Pixel)
  width : Nat
  height : Nat
  magicNumber : List Nat
  max : Nat
deriving DecidableEq

/-- Channel values fit in a Go `uint8`. -/
def PixelWf (px : Pixel) : Prop := px.R ≤ 255 ∧ px.G ≤ 255 ∧ px.B ≤ 255

instance : DecidablePred PixelWf := fun px => by unfold PixelWf; infer_instance

/-- Well-formedness of a `PPM` value: the size invariants the Go struct
maintains (`rows == height`, `row.length == width`, positive dimensions),
the `uint8` ranges, and a recognized magic number. -/
def PPM.Wf (p : PPM) : Prop :=
  0 < p.width ∧ 0 < p.height ∧
  p.data.length = p.height ∧
  (∀ row ∈ p.data, row.length = p.width) ∧
  (∀ row ∈ p.data, ∀ px ∈ row, PixelWf px) ∧
  p.max ≤ 255 ∧
  (p.magicNumber = magicP3 ∨ p.magicNumber = magicP6)

instance (p : PPM) : Decidable p.Wf := by unfold PPM.Wf; infer_instance

/-- Default pixel used to totalize list indexing (never observable on
in-range accesses of well-formed buffers). -/
def pixZero : Pixel := ⟨0, 0, 0⟩

/-- Read `data[y][x]` (total version of Go's slice indexing). -/
def getPix (d : List (List Pixel)) (y x : Nat) : Pixel :=
  (d.getD y []).getD x pixZero

/-- Write `data[y][x] = c` (total version of Go's slice assignment; Go would
panic on an out-of-range index, `List.set` leaves the list unchanged). -/
def setPix (d : List (List Pixel)) (y x : Nat) (c : Pixel) : List (List Pixel) :=
  d.set y ((d.getD y []).set x c)

/-- `func (ppm *PPM) At(x, y int) Pixel`: bounds-checked read; the Go code
panics "Index out of bounds" outside the canvas, modelled as `none`. -/
def PPM.At (p : PPM) (x y : Int) : Option Pixel :=
  if x < 0 ∨ (p.width : Int) ≤ x ∨ y < 0 ∨ (p.height : Int) ≤ y then none
  else some (getPix p.data y.toNat x.toNat)

/-- `func (ppm *PPM) SetPixel(p Point, color Pixel)`: the write primitive the
drawing code uses; silently does nothing outside the canvas. -/
def PPM.SetPixel (p : PPM) (pt : Point) (color : Pixel) : PPM :=
  if 0 ≤ pt.X ∧ pt.X < (p.width : Int) ∧ 0 ≤ pt.Y ∧ pt.Y < (p.height : Int) then
    { p with data := setPix p.data pt.Y.toNat pt.X.toNat color }
  else p

/-- `func (ppm *PPM) Invert()`: per channel `c ↦ 255 - c` on `uint8`; since a
`uint8` operand is at most 255 the Go subtraction never wraps, so `Nat`
subtraction is the exact model on well-formed buffers. -/
def Pixel.invert (px : Pixel) : Pixel := ⟨255 - px.R, 255 - px.G, 255 - px.B⟩

/-- In-place inversion of every pixel; width, height, magic number and max
intensity are not touched by the Go loop. -/
def PPM.Invert (p : PPM) : PPM :=
  { p with data := p.data.map (fun row => row.map Pixel.invert) }

/-- The nine `(dy, dx)` offsets of the Go double loop
`for dy := -1; dy <= 1; dy++ { for dx := -1; dx <= 1; dx++ { ... } }`. -/
def neighborOffsets : List (Int × Int) :=
  [(-1, -1), (-1, 0), (-1, 1), (0, -1), (0, 0), (0, 1), (1, -1), (1, 0), (1, 1)]

/-- `func (ppm *PPM) findKNearestNeighbors(x, y int) []Pixel`: the pixels of
the 3×3 neighborhood of `(x, y)` that lie inside the canvas, in loop order. -/
def PPM.findKNearestNeighbors (p : PPM) (x y : Int) : List Pixel :=
  neighborOffsets.filterMap fun dd =>
    let ny : Int := y + dd.1
    let nx : Int := x + dd.2
    if 0 ≤ nx ∧ nx < (p.width : Int) ∧ 0 ≤ ny ∧ ny < (p.height : Int) then
      some (getPix p.data ny.toNat nx.toNat)
    else none

/-- `func (ppm *PPM) averageColors(pixels []Pixel) Pixel`: unweighted integer
average per channel; the final Go `uint8(...)` conversion is `% 256`.  On an
empty list Go would divide by zero (a panic); `Nat` division by zero yields 0
here, and every call site proved about below passes a nonempty list. -/
def averageColors (pixels : List Pixel) : Pixel :=
  let totalR := (pixels.map (fun px => px.R)).sum
  let totalG := (pixels.map (fun px => px.G)).sum
  let totalB := (pixels.map (fun px => px.B)).sum
  let count := pixels.length
  ⟨totalR / count % 256, totalG / count % 256, totalB / count % 256⟩

/-- Result of `KNearestNeighbors`: the (possibly replaced) buffer, and whether
the "Invalid dimensions for resizing." message was printed. -/
structure ResizeResult where
  buffer : PPM
  invalidReported : Bool
deriving DecidableEq

/-- `func (ppm *PPM) KNearestNeighbors(newWidth, newHeight int)`: the resize
transform.  `originalX = int(float64(x) * scaleX)` with
`scaleX = float64(width) / float64(newWidth)` is modelled as the exact real
computation `⌊x * width / newWidth⌋`, which on these nonnegative operands is
`Nat` division. -/
def PPM.KNearestNeighbors (p : PPM) (newWidth newHeight : Int) : ResizeResult :=
  if newWidth ≤ 0 ∨ newHeight ≤ 0 then
    ⟨p, true⟩
  else
    let nw := newWidth.toNat
    let nh := newHeight.toNat
    let resizedData := (List.range nh).map fun y =>
      (List.range nw).map fun x =>
        let originalX : Nat := x * p.width / nw
        let originalY : Nat := y * p.height / nh
        averageColors (p.findKNearestNeighbors originalX originalY)
    ⟨⟨resizedData, nw, nh, p.magicNumber, p.max⟩, false⟩

/-- `func DrawLinetool(x int) int`: absolute value. -/
def DrawLinetool (x : Int) : Int := if x < 0 then -x else x

/-- One Go iteration state of the Bresenham loop in `DrawLine`. -/
structure LineState where
  buf : PPM
  x1 : Int
  y1 : Int
  err : Int
deriving DecidableEq

/-- The body of the Go `for {}` loop in `DrawLine`, run with fuel.  The loop
plots the current point, stops at the endpoint, and otherwise advances per the
Bresenham decision rule.  `dx + dy + 1` iterations exhaust the classic
algorithm; if the fuel ever ran out the current buffer would be returned. -/
def drawLineLoop (color : Pixel) (x2 y2 dx dy sx sy : Int) :
    Nat → LineState → PPM
  | 0, st => st.buf
  | fuel + 1, st =>
    let buf := st.buf.SetPixel ⟨st.x1, st.y1⟩ color
    if st.x1 = x2 ∧ st.y1 = y2 then buf
    else
      let e2 := 2 * st.err
      let err1 := if e2 > -dy then st.err - dy else st.err
      let x1' := if e2 > -dy then st.x1 + sx else st.x1
      let err2 := if e2 < dx then err1 + dx else err1
      let y1' := if e2 < dx then st.y1 + sy else st.y1
      drawLineLoop color x2 y2 dx dy sx sy fuel ⟨buf, x1', y1', err2⟩

/-- `func (ppm *PPM) DrawLine(p1, p2 Point, color Pixel)`: integer Bresenham
line from `p1` to `p2`. -/
def PPM.DrawLine (p : PPM) (p1 p2 : Point) (color : Pixel) : PPM :=
  let dx := DrawLinetool (p2.X - p1.X)
  let dy := DrawLinetool (p2.Y - p1.Y)
  let sx : Int := if p1.X < p2.X then 1 else -1
  let sy : Int := if p1.Y < p2.Y then 1 else -1
  drawLineLoop color p2.X p2.Y dx dy sx sy (dx + dy + 1).toNat
    ⟨p, p1.X, p1.Y, dx - dy⟩

/-- `func (ppm *PPM) DrawTriangle(p1, p2, p3 Point, color Pixel)`: the three
edges, in source order. -/
def PPM.DrawTriangle (p : PPM) (p1 p2 p3 : Point) (color : Pixel) : PPM :=
  (((p.DrawLine p1 p2 color).DrawLine p2 p3 color).DrawLine p3 p1 color)

/-- The integers `a, a+1, ..., b-1` (empty when `b ≤ a`): the index sequence
of a Go loop `for i := a; i < b; i++`. -/
def intRange (a b : Int) : List Int :=
  (List.range (b - a).toNat).map fun i => a + (i : Int)

/-- Direct slice write `ppm.data[y][x] = color` at possibly negative indices.
Go panics when an index is negative or past the slice length; the model
leaves the grid unchanged there (the claims below only evaluate in-range
writes of this operation). -/
def setAt (d : List (List Pixel)) (y x : Int) (c : Pixel) : List (List Pixel) :=
  if 0 ≤ y ∧ 0 ≤ x then setPix d y.toNat x.toNat c else d

/-- The inner `x` loop of `DrawFilledRectangle` for one row `y`: note the
first branch runs `x <= p1.X+width` (inclusive) and that the case
`p1.X+width == ppm.width` falls through both branches and paints nothing. -/
def filledRectRow (wCanvas : Int) (p1x wReq : Int) (c : Pixel)
    (d : List (List Pixel)) (y : Int) : List (List Pixel) :=
  if p1x + wReq < wCanvas then
    (intRange p1x (p1x + wReq + 1)).foldl (fun acc x => setAt acc y x c) d
  else if p1x + wReq > wCanvas then
    (intRange p1x wCanvas).foldl (fun acc x => setAt acc y x c) d
  else d

/-- `func (ppm *PPM) DrawFilledRectangle(p1 Point, width, height int, color
Pixel)`: the row loop; the case `p1.Y+height == ppm.height` likewise falls
through both branches and paints nothing. -/
def PPM.DrawFilledRectangle (p : PPM) (p1 : Point) (width height : Int)
    (color : Pixel) : PPM :=
  if p1.Y + height < (p.height : Int) then
    let d := (intRange p1.Y (p1.Y + height)).foldl
      (filledRectRow p.width p1.X width color) p.data
    { p with data := d }
  else if p1.Y + height > (p.height : Int) then
    let d := (intRange p1.Y (p.height : Int)).foldl
      (filledRectRow p.width p1.X width color) p.data
    { p with data := d }
  else p

/-- IEEE-style value of a Go `float64` expression: a finite value (modelled as
an exact rational — rounding of finite arithmetic is irrelevant to the claims
proved below, which only concern the non-finite outcomes), an infinity, or
NaN. -/
inductive GoFloat where
  | finite (q : ℚ)
  | posInf
  | negInf
  | nan
deriving DecidableEq

/-- Whether a float value is finite. -/
def GoFloat.isFinite : GoFloat → Bool
  | .finite _ => true
  | _ => false

/-- Float division, with the IEEE zero-denominator cases. -/
def GoFloat.div : GoFloat → GoFloat → GoFloat
  | .finite a, .finite b =>
    if b = 0 then
      if a = 0 then .nan else if 0 < a then .posInf else .negInf
    else .finite (a / b)
  | .nan, _ => .nan
  | _, .nan => .nan
  | .finite _, .posInf => .finite 0
  | .finite _, .negInf => .finite 0
  | .posInf, .finite b => if 0 ≤ b then .posInf else .negInf
  | .negInf, .finite b => if 0 ≤ b then .negInf else .posInf
  | .posInf, .posInf => .nan
  | .posInf, .negInf => .nan
  | .negInf, .posInf => .nan
  | .negInf, .negInf => .nan

/-- Float multiplication, with the IEEE infinity and NaN cases. -/
def GoFloat.mul : GoFloat → GoFloat → GoFloat
  | .finite a, .finite b => .finite (a * b)
  | .nan, _ => .nan
  | _, .nan => .nan
  | .finite a, .posInf => if a = 0 then .nan else if 0 < a then .posInf else .negInf
  | .finite a, .negInf => if a = 0 then .nan else if 0 < a then .negInf else .posInf
  | .posInf, .finite b => if b = 0 then .nan else if 0 < b then .posInf else .negInf
  | .negInf, .finite b => if b = 0 then .nan else if 0 < b then .negInf else .posInf
  | .posInf, .posInf => .posInf
  | .posInf, .negInf => .negInf
  | .negInf, .posInf => .negInf
  | .negInf, .negInf => .posInf

/-- Float addition, with the IEEE infinity and NaN cases. -/
def GoFloat.add : GoFloat → GoFloat → GoFloat
  | .finite a, .finite b => .finite (a + b)
  | .nan, _ => .nan
  | _, .nan => .nan
  | .finite _, .posInf => .posInf
  | .finite _, .negInf => .negInf
  | .posInf, .finite _ => .posInf
  | .negInf, .finite _ => .negInf
  | .posInf, .posInf => .posInf
  | .posInf, .negInf => .nan
  | .negInf, .posInf => .nan
  | .negInf, .negInf => .negInf

/-- `func FilledTriangleTools(p1, p2 Point, y int) float64`:
`float64(p1.X) + float64(y-p1.Y) * (float64(p2.X-p1.X) / float64(p2.Y-p1.Y))`.
The division has no guard: when `p2.Y == p1.Y` it is a float division by
zero. -/
def FilledTriangleTools (p1 p2 : Point) (y : Int) : GoFloat :=
  GoFloat.add (.finite (p1.X : ℚ))
    (GoFloat.mul (.finite ((y - p1.Y : Int) : ℚ))
      (GoFloat.div (.finite ((p2.X - p1.X : Int) : ℚ))
        (.finite ((p2.Y - p1.Y : Int) : ℚ))))

/-- Insert a point into a list Y-sorted ascending (ties keep insertion
order). -/
def insertByY (p : Point) : List Point → List Point
  | [] => [p]
  | q :: qs => if p.Y < q.Y then p :: q :: qs else q :: insertByY p qs

/-- The `sort.Slice(vertices, ...Y < ...Y)` step of `DrawFilledTriangle`:
some Y-nondecreasing reordering of the three vertices (Go's sort is
unstable; the facts proved below do not depend on the order of Y-ties). -/
def sortByY (l : List Point) : List Point := l.foldr insertByY []

/-- Exact `float64 → int` conversion of Go for finite values: truncation
toward zero (`Int.tdiv` of the rational's numerator by its denominator). -/
def truncQ (q : ℚ) : Int := q.num.tdiv (q.den : Int)

/-- The shortest-decimal value of the `float64` constant `math.Sqrt(3)`. -/
def sqrt3F : ℚ := 1.7320508075688772

/-- The shortest-decimal value of `math.Cos(math.Pi / 3)` in `float64`. -/
def cosPiDiv3 : ℚ := 0.5000000000000001

/-- The shortest-decimal value of `math.Sin(math.Pi / 3)` in `float64`. -/
def sinPiDiv3 : ℚ := 0.8660254037844386

/-- `height := int(math.Sqrt(3) * float64(size) / 2)` from
`DrawKochSnowflake`, over the exact-rational float model. -/
def kochHeight (size : Int) : Int := truncQ (sqrt3F * (size : ℚ) / 2)

/-- First vertex of the Koch base triangle: `start`. -/
def kochPoint1 (start : Point) : Point := start

/-- Second vertex: `{X: start.X + size, Y: start.Y}`. -/
def kochPoint2 (start : Point) (size : Int) : Point :=
  ⟨start.X + size, start.Y⟩

/-- Third vertex: `{X: start.X + size/2, Y: start.Y + height}` (Go integer
division truncates toward zero). -/
def kochPoint3 (start : Point) (size : Int) : Point :=
  ⟨start.X + size.tdiv 2, start.Y + kochHeight size⟩

/-- `func (ppm *PPM) KochSnowflake(n int, point1, point2 Point, color Pixel)`:
depth-0 draws the straight segment; otherwise the segment is subdivided at the
third points and the rotated apex, and the four sub-segments recurse.  The
apex arithmetic `int(float64(...)*cos - float64(...)*sin) + ...` is modelled
with the exact-rational float constants above (inessential to the depth-0
claim, which never reaches this branch).  Depth is a `Nat`: the Go code
recurses on `n-1` until `n == 0`, which terminates exactly on nonnegative
depths. -/
def PPM.KochSnowflake (p : PPM) : Nat → Point → Point → Pixel → PPM
  | 0, point1, point2, color => p.DrawLine point1 point2 color
  | n + 1, point1, point2, color =>
    let q1 : Point := ⟨point1.X + (point2.X - point1.X).tdiv 3,
                       point1.Y + (point2.Y - point1.Y).tdiv 3⟩
    let q2 : Point := ⟨point1.X + (2 * (point2.X - point1.X)).tdiv 3,
                       point1.Y + (2 * (point2.Y - point1.Y)).tdiv 3⟩
    let p3 : Point :=
      ⟨truncQ (((q1.X - q2.X : Int) : ℚ) * cosPiDiv3 -
               ((q1.Y - q2.Y : Int) : ℚ) * sinPiDiv3) + q2.X,
       truncQ (((q1.X - q2.X : Int) : ℚ) * sinPiDiv3 +
               ((q1.Y - q2.Y : Int) : ℚ) * cosPiDiv3) + q2.Y⟩
    ((((p.KochSnowflake n point1 q1 color).KochSnowflake n q1 p3
        color).KochSnowflake n p3 q2 color).KochSnowflake n q2 point2 color)

/-- `func (ppm *PPM) DrawKochSnowflake(n int, start Point, size int, color
Pixel)`: builds the base triangle and runs the Koch curve over its three
edges, in source order. -/
def PPM.DrawKochSnowflake (p : PPM) (n : Nat) (start : Point) (size : Int)
    (color : Pixel) : PPM :=
  let point1 := kochPoint1 start
  let point2 := kochPoint2 start size
  let point3 := kochPoint3 start size
  (((p.KochSnowflake n point1 point2 color).KochSnowflake n point2 point3
      color).KochSnowflake n point3 point1 color)

/-- Unicode/ASCII whitespace as recognized by Go's `strings` package and
`fmt` scanning (the bytes that can occur here: space, TAB, LF, VT, FF, CR). -/
def isSpace (c : Nat) : Bool :=
  c = 32 || c = 9 || c = 10 || c = 11 || c = 12 || c = 13

/-- ASCII decimal digit. -/
def isDigit (c : Nat) : Bool := 48 ≤ c && c ≤ 57

/-- Decimal rendering worker; `fuel` strictly exceeds the value, so the
zero-fuel branch is unreachable from `renderNat`. -/
def renderNatAux : Nat → Nat → List Nat
  | 0, _ => []
  | fuel + 1, n => if n < 10 then [48 + n] else renderNatAux fuel (n / 10) ++ [48 + n % 10]

/-- The bytes `fmt.Fprintf("%d", n)` writes for a nonnegative integer. -/
def renderNat (n : Nat) : List Nat := renderNatAux (n + 1) n

/-- Accumulating decimal parse of a digit list. -/
def parseDigitsAux (acc : Nat) : List Nat → Nat
  | [] => acc
  | c :: cs => parseDigitsAux (acc * 10 + (c - 48)) cs

/-- Split a byte string at its first newline: the bytes before it and the
bytes after it, `none` when it contains no newline.  This is the search
`bufio.ReadSlice('\n')` performs inside the buffered window. -/
def readLine : List Nat → Option (List Nat × List Nat)
  | [] => none
  | c :: cs =>
    if c = 10 then some ([], cs)
    else
      match readLine cs with
      | none => none
      | some (l, r) => some (c :: l, r)

/-- Tail-recursive list length worker (the reader model measures buffers of
thousands of bytes, and concrete evaluation of those measurements must not
recurse as deeply as the list is long). -/
def lenTAux (acc : Nat) : List Nat → Nat
  | [] => acc
  | _ :: t => lenTAux (acc + 1) t

/-- Tail-recursive list length, equal to `List.length`. -/
def lenT (l : List Nat) : Nat := lenTAux 0 l

/-- State of the `bufio.Reader` that `ReadPPM` wraps around the file:
`buf` holds the buffered, not-yet-consumed bytes (at most 4096, the default
`bufio.NewReader` size) and `src` the bytes not yet read from the file.  A
regular-file read returns the full requested count except at end of file,
so a buffer fill transfers `min (4096 - buf.length) src.length` bytes. -/
structure Reader where
  buf : List Nat
  src : List Nat

/-- `bufio.Reader.Read(p)` with `len(p) = nreq`.  When the buffer is
nonempty it returns only the buffered bytes, up to `nreq`, WITHOUT refilling
— the source of the decoder's short reads.  When the buffer is empty, a
request of at least the buffer size reads directly from the file, and a
smaller request fills the buffer once and serves from it; either way an
empty-buffer read returns `min nreq available` bytes (zero with `io.EOF`
when the file is exhausted). -/
def bufRead (r : Reader) (nreq : Nat) : List Nat × Reader :=
  if r.buf.isEmpty then
    if 4096 ≤ nreq then
      let n := min nreq (lenT r.src)
      (r.src.take n, ⟨[], r.src.drop n⟩)
    else
      let t := min 4096 (lenT r.src)
      let chunk := r.src.take t
      let n := min nreq t
      (chunk.take n, ⟨chunk.drop n, r.src.drop t⟩)
  else
    let n := min (lenT r.buf) nreq
    (r.buf.take n, ⟨r.buf.drop n, r.src⟩)

/-- The `ReadString('\n')` loop: search the buffered window for the
delimiter; on `ErrBufferFull` (a full 4096-byte window with no delimiter)
`ReadBytes` keeps the window's contents and continues; at end of file with
no delimiter the read error is returned (`none`); otherwise fill the buffer
from the file and retry.  One iteration per fill or full-buffer drain, so
`buf.length + 2*src.length + 1` fuel always suffices; the zero-fuel branch
is unreachable from `bufReadString`. -/
def readLineAux : Nat → List Nat → Reader → Option (List Nat × Reader)
  | 0, _, _ => none
  | fuel + 1, acc, r =>
    match readLine r.buf with
    | some (pre, post) => some (acc ++ pre, ⟨post, r.src⟩)
    | none =>
      if 4096 ≤ lenT r.buf then
        readLineAux fuel (acc ++ r.buf) ⟨[], r.src⟩
      else if r.src.isEmpty then none
      else
        let t := min (4096 - lenT r.buf) (lenT r.src)
        readLineAux fuel acc ⟨r.buf ++ r.src.take t, r.src.drop t⟩

/-- `bufio.Reader.ReadString('\n')` over the reader state: the bytes before
the next newline (the delimiter is consumed; `TrimSpace`/`Fields` discard it
anyway) and the advanced reader; `none` when the remaining input holds no
newline (Go then reports the read error that `ReadPPM` turns into a
failure — including a final line not terminated by a newline). -/
def bufReadString (r : Reader) : Option (List Nat × Reader) :=
  readLineAux (lenT r.buf + 2 * lenT r.src + 1) [] r

/-- `strings.TrimSpace`: strip whitespace from both ends. -/
def trimSpace (s : List Nat) : List Nat :=
  ((s.dropWhile isSpace).reverse.dropWhile isSpace).reverse

/-- Leading-whitespace skip performed by `fmt` `%d` scanning. -/
def skipSpaces (s : List Nat) : List Nat := s.dropWhile isSpace

/-- Scan a bare digit run: the parsed value and the rest, `none` when the
input does not start with a digit. -/
def scanNatRaw (s : List Nat) : Option (Nat × List Nat) :=
  let ds := s.takeWhile isDigit
  if ds = [] then none else some (parseDigitsAux 0 ds, s.dropWhile isDigit)

/-- `fmt.Sscanf(s, "%d", &intVar)`: skip spaces, optional minus sign, digit
run.  Trailing bytes are ignored, as `Sscanf` ignores input past the
format. -/
def scanInt (s : List Nat) : Option (Int × List Nat) :=
  let s1 := skipSpaces s
  if s1.head? = some 45 then
    match scanNatRaw s1.tail with
    | none => none
    | some (n, r) => some (-(n : Int), r)
  else
    match scanNatRaw s1 with
    | none => none
    | some (n, r) => some ((n : Int), r)

/-- `fmt.Sscanf(s, "%d", &uint8Var)`: digit run, rejected when the value
overflows a `uint8` (Go reports a range error). -/
def scanU8 (s : List Nat) : Option (Nat × List Nat) :=
  match scanNatRaw (skipSpaces s) with
  | none => none
  | some (n, r) => if n ≤ 255 then some (n, r) else none

/-- `strings.Fields` worker with the accumulator of the current token
(reversed). -/
def fieldsAux : List Nat → List Nat → List (List Nat)
  | acc, [] => if acc.isEmpty then [] else [acc.reverse]
  | acc, c :: cs =>
    if isSpace c then
      if acc.isEmpty then fieldsAux [] cs
      else acc.reverse :: fieldsAux [] cs
    else fieldsAux (c :: acc) cs

/-- `strings.Fields`: the maximal whitespace-free runs of a byte string. -/
def fields (s : List Nat) : List (List Nat) := fieldsAux [] s

/-- The bytes `fmt.Fprintf("%d %d %d ", pixel.R, pixel.G, pixel.B)` writes
for one pixel of a textual-variant row. -/
def encodePixelP3 (px : Pixel) : List Nat :=
  renderNat px.R ++ 32 :: (renderNat px.G ++ 32 :: (renderNat px.B ++ [32]))

/-- One textual-variant row: the pixel triples followed by the newline the
`Save` row loop prints. -/
def encodeRowP3 (row : List Pixel) : List Nat :=
  (row.map encodePixelP3).flatten ++ [10]

/-- One binary-variant row: `file.Write([]byte{pixel.R, pixel.G, pixel.B})`
per pixel, no separators. -/
def encodeRowP6 (row : List Pixel) : List Nat :=
  (row.map (fun px => [px.R, px.G, px.B])).flatten

/-- The bytes `Save` writes for a buffer with a recognized magic number:
the header `"%s\n%d %d\n%d\n"` followed by the rows in the matching
variant. -/
def encodePPM (p : PPM) : List Nat :=
  p.magicNumber ++ 10 ::
    (renderNat p.width ++ 32 :: (renderNat p.height ++ 10 ::
      (renderNat p.max ++ 10 ::
        (p.data.map (fun row =>
          if p.magicNumber = magicP6 then encodeRowP6 row
          else if p.magicNumber = magicP3 then encodeRowP3 row
          else [])).flatten)))

/-- `func (ppm *PPM) Save(filename string) error`: rejects an unrecognized
magic number before writing anything; otherwise produces `encodePPM`. -/
def PPM.Save (p : PPM) : Option (List Nat) :=
  if p.magicNumber = magicP6 ∨ p.magicNumber = magicP3 then some (encodePPM p)
  else none

/-- Decode failures of `ReadPPM`, keyed by the Go error messages. -/
inductive DecodeError where
  /-- "error reading magic number / dimensions / max value": a header line
  could not be read. -/
  | headerRead
  /-- "invalid magic number". -/
  | badMagic
  /-- "invalid dimensions" (either unparsable or nonpositive). -/
  | badDimensions
  /-- "invalid max value". -/
  | badMax
  /-- "error reading data at row y" (textual variant, missing row line). -/
  | rowRead (y : Nat)
  /-- "index out of range at row y, column x" (textual variant, too few
  fields). -/
  | fieldMissing (y x : Nat)
  /-- "error parsing Red/Green/Blue value at row y, column x". -/
  | fieldParse (y x : Nat)
  /-- "unexpected end of file at row y" (binary variant, truncated data). -/
  | truncated (y : Nat)
deriving DecidableEq

/-- One textual-variant row worth of fields: pixel `x` reads fields
`3x`, `3x+1`, `3x+2`, errors mirroring the Go index check and the three
`Sscanf` calls. -/
def parseP3RowAux (y : Nat) : Nat → Nat → List (List Nat) →
    Except DecodeError (List Pixel)
  | _, 0, _ => .ok []
  | x, w + 1, f1 :: f2 :: f3 :: rest =>
    match scanU8 f1, scanU8 f2, scanU8 f3 with
    | some (r, _), some (g, _), some (b, _) =>
      match parseP3RowAux y (x + 1) w rest with
      | .ok ps => .ok (⟨r, g, b⟩ :: ps)
      | .error e => .error e
    | _, _, _ => .error (.fieldParse y x)
  | x, _ + 1, _ => .error (.fieldMissing y x)

/-- The textual-variant row loop of `ReadPPM`: one `ReadString('\n')` line
per row, split into fields. -/
def parseP3Rows (w : Nat) : Nat → Nat → Reader →
    Except DecodeError (List (List Pixel))
  | 0, _, _ => .ok []
  | hRemaining + 1, y, r =>
    match bufReadString r with
    | none => .error (.rowRead y)
    | some (line, r2) =>
      match parseP3RowAux y 0 w (fields line) with
      | .error e => .error e
      | .ok row =>
        match parseP3Rows w hRemaining (y + 1) r2 with
        | .error e => .error e
        | .ok rows => .ok (row :: rows)

/-- Regroup one binary row's bytes into pixels, mirroring
`row[x*3], row[x*3+1], row[x*3+2]` for `x < width` (the row buffer always
has exactly `width*3` bytes when this runs). -/
def bytesToPixels : Nat → List Nat → List Pixel
  | 0, _ => []
  | w + 1, r :: g :: b :: rest => ⟨r, g, b⟩ :: bytesToPixels w rest
  | _ + 1, _ => []

/-- The binary-variant row loop of `ReadPPM`: each row calls
`reader.Read(row)` for a `width*3`-byte buffer.  `bufRead` delivers at most
the buffered chunk, so a row crossing a chunk boundary comes back short, and
fewer than `width*3` bytes (including zero at end of file, Go's `io.EOF`
branch) is the "unexpected end of file at row y" failure. -/
def parseP6Rows (w : Nat) : Nat → Nat → Reader →
    Except DecodeError (List (List Pixel))
  | 0, _, _ => .ok []
  | hRemaining + 1, y, r =>
    let need := w * 3
    let res := bufRead r need
    if lenT res.1 < need then .error (.truncated y)
    else
      match parseP6Rows w hRemaining (y + 1) res.2 with
      | .error e => .error e
      | .ok rows => .ok (bytesToPixels w res.1 :: rows)

/-- `func ReadPPM(filename string) (*PPM, error)`: the full decoder.  The
file contents are `input`; the function wraps them in a fresh `bufio`
reader, reads three newline-terminated header lines (magic number,
dimensions, max value), each trimmed and scanned exactly as the Go code
does, then the pixel data in the variant selected by the magic number. -/
def ReadPPM (input : List Nat) : Except DecodeError PPM :=
  match bufReadString ⟨[], input⟩ with
  | none => .error .headerRead
  | some (l1, r1) =>
    let magic := trimSpace l1
    if magic = magicP3 ∨ magic = magicP6 then
      match bufReadString r1 with
      | none => .error .headerRead
      | some (l2, r2) =>
        match scanInt (trimSpace l2) with
        | none => .error .badDimensions
        | some (w, rest) =>
          match scanInt rest with
          | none => .error .badDimensions
          | some (h, _) =>
            if w ≤ 0 ∨ h ≤ 0 then .error .badDimensions
            else
              match bufReadString r2 with
              | none => .error .headerRead
              | some (l3, r3) =>
                match scanU8 (trimSpace l3) with
                | none => .error .badMax
                | some (mx, _) =>
                  if magic = magicP3 then
                    match parseP3Rows w.toNat h.toNat 0 r3 with
                    | .error e => .error e
                    | .ok rows => .ok ⟨rows, w.toNat, h.toNat, magic, mx⟩
                  else
                    match parseP6Rows w.toNat h.toNat 0 r3 with
                    | .error e => .error e
                    | .ok rows => .ok ⟨rows, w.toNat, h.toNat, magic, mx⟩
    else .error .badMagic

deriving instance DecidableEq for Except

/-! ### Example buffers used by concrete statements and witnesses -/

/-- Red pixel. -/
def pixRed : Pixel := ⟨255, 0, 0⟩

/-- An all-black 2×2 binary-variant buffer. -/
def exBlack2x2 : PPM :=
  ⟨[[pixZero, pixZero], [pixZero, pixZero]], 2, 2, magicP6, 255⟩

/-- A 3×2 buffer in which every pixel equals `⟨9, 200, 47⟩`. -/
def exConst3x2 : PPM :=
  ⟨[[⟨9, 200, 47⟩, ⟨9, 200, 47⟩, ⟨9, 200, 47⟩],
    [⟨9, 200, 47⟩, ⟨9, 200, 47⟩, ⟨9, 200, 47⟩]], 3, 2, magicP3, 255⟩

/-- A 2×2 textual-variant buffer with four distinct pixels. -/
def exMixedP3 : PPM :=
  ⟨[[⟨0, 10, 255⟩, ⟨1, 2, 3⟩], [⟨100, 200, 30⟩, ⟨7, 8, 9⟩]], 2, 2, magicP3, 255⟩

/-- The same four pixels as a binary-variant buffer. -/
def exMixedP6 : PPM :=
  ⟨[[⟨0, 10, 255⟩, ⟨1, 2, 3⟩], [⟨100, 200, 30⟩, ⟨7, 8, 9⟩]], 2, 2, magicP6, 255⟩

/-! ### C5: invalid resize arguments -/

/-- C5: `KNearestNeighbors` with a nonpositive target dimension reports the
invalid-argument condition and returns with the receiver untouched — the
validation precedes every mutation, so failure is atomic: the result is the
original buffer unchanged (same width, height and pixels) with the report
flag set. -/
theorem resize_invalid_atomic (p : PPM) (newWidth newHeight : Int)
    (h : newWidth ≤ 0 ∨ newHeight ≤ 0) :
    p.KNearestNeighbors newWidth newHeight = ⟨p, true⟩ := by
  unfold PPM.KNearestNeighbors
  rw [if_pos h]

/-- Witness: resizing the 3×2 example to width 0 reports invalid and leaves
the buffer unchanged. -/
theorem resize_invalid_atomic_witness :
    exConst3x2.KNearestNeighbors 0 4 = ⟨exConst3x2, true⟩ :=
  resize_invalid_atomic exConst3x2 0 4 (by decide)

/-! ### C10: Invert is an involution -/

/-- C10: on a well-formed buffer, applying `Invert` twice restores every
pixel (each channel maps `c ↦ 255 - c`, and `255 - (255 - c) = c` for
`c ≤ 255`), and a single application leaves width, height, magic number and
max intensity unchanged. -/
theorem invert_involution (p : PPM) (hw : p.Wf) :
    p.Invert.Invert = p ∧ p.Invert.width = p.width ∧
    p.Invert.height = p.height ∧ p.Invert.magicNumber = p.magicNumber ∧
    p.Invert.max = p.max := by
  obtain ⟨-, -, -, -, hpx, -, -⟩ := hw
  refine ⟨?_, rfl, rfl, rfl, rfl⟩
  obtain ⟨d, w, h, m, mx⟩ := p
  simp only [PPM.Invert, List.map_map, PPM.mk.injEq, and_true]
  have : ∀ row ∈ d, ((fun r => List.map Pixel.invert r) ∘
      fun r => List.map Pixel.invert r) row = id row := by
    intro row hrow
    simp only [Function.comp_apply, List.map_map, id_eq]
    have : ∀ px ∈ row, (Pixel.invert ∘ Pixel.invert) px = id px := by
      intro px hp
      obtain ⟨h1, h2, h3⟩ := hpx row hrow px hp
      simp only [Function.comp_apply, Pixel.invert, id_eq]
      obtain ⟨r, g, b⟩ := px
      simp only [Pixel.mk.injEq]
      dsimp only at h1 h2 h3
      omega
    rw [List.map_congr_left this, List.map_id]
  rw [List.map_congr_left this, List.map_id]

/-- Witness: the double inversion of the mixed 2×2 example is itself. -/
theorem invert_involution_witness :
    exMixedP3.Invert.Invert = exMixedP3 :=
  (invert_involution exMixedP3 (by decide)).1

/-! ### C2: bounds-checked pixel access -/

/-- In-range rows of the grid have the declared width. -/
theorem row_length_of_wf {p : PPM} (hw : p.Wf) {y : Nat} (hy : y < p.height) :
    (p.data.getD y []).length = p.width := by
  obtain ⟨-, -, hlen, hrows, -, -, -⟩ := hw
  have hylen : y < p.data.length := by omega
  rw [List.getD_eq_getElem?_getD, List.getElem?_eq_getElem hylen]
  exact hrows _ (p.data.getElem_mem hylen)

/-- Reading back the cell just written. -/
theorem getPix_setPix_self (d : List (List Pixel)) (y x : Nat) (c : Pixel)
    (hy : y < d.length) (hx : x < (d.getD y []).length) :
    getPix (setPix d y x c) y x = c := by
  unfold getPix setPix
  rw [List.getD_eq_getElem (d.set y _) [] (by rw [List.length_set]; exact hy),
    List.getElem_set_self, List.getD_eq_getElem _ pixZero
      (by rw [List.length_set]; exact hx), List.getElem_set_self]

/-- A write leaves every other cell alone. -/
theorem getPix_setPix_ne (d : List (List Pixel)) (y x y' x' : Nat) (c : Pixel)
    (h : y' ≠ y ∨ x' ≠ x) :
    getPix (setPix d y x c) y' x' = getPix d y' x' := by
  unfold getPix setPix
  rcases Decidable.em (y = y') with hyy | hyy
  · have hxx : x ≠ x' := by
      rcases h with h | h
      · exact absurd hyy.symm h
      · exact fun hcon => h hcon.symm
    subst hyy
    rcases Decidable.em (y < d.length) with hlt | hlt
    · rw [List.getD_eq_getElem (d.set y _) [] (by rw [List.length_set]; exact hlt),
        List.getElem_set_self, List.getD_eq_getElem d [] hlt]
      rcases Decidable.em (x' < d[y].length) with hxlt | hxlt
      · rw [List.getD_eq_getElem _ pixZero (by rw [List.length_set]; exact hxlt),
          List.getElem_set_ne hxx, List.getD_eq_getElem _ pixZero hxlt]
      · rw [List.getD_eq_default _ pixZero (by rw [List.length_set]; omega),
          List.getD_eq_default _ pixZero (by omega)]
    · rw [List.set_eq_of_length_le (by omega)]
  · rw [List.getD_eq_getElem?_getD (d.set y _), List.getElem?_set,
      if_neg (fun hcon => hyy hcon), ← List.getD_eq_getElem?_getD]

/-- C2: the write primitive the drawing code uses (`SetPixel`) is a no-op on
any out-of-range coordinate, and the bounds-checked read (`At`) fails there
(the Go code's "Index out of bounds" panic, the spec's IndexError) instead of
touching memory; in range, `At` returns the stored pixel, and after a
`SetPixel` the written pixel is read back while every other coordinate is
unaffected. -/
theorem pixel_access_bounds (p : PPM) (hw : p.Wf) (x y : Int) (c : Pixel) :
    ((x < 0 ∨ (p.width : Int) ≤ x ∨ y < 0 ∨ (p.height : Int) ≤ y) →
      p.At x y = none ∧ p.SetPixel ⟨x, y⟩ c = p)
    ∧ (0 ≤ x → x < (p.width : Int) → 0 ≤ y → y < (p.height : Int) →
      p.At x y = some (getPix p.data y.toNat x.toNat)
      ∧ (p.SetPixel ⟨x, y⟩ c).At x y = some c
      ∧ ∀ x' y' : Int, x' ≠ x ∨ y' ≠ y →
          (p.SetPixel ⟨x, y⟩ c).At x' y' = p.At x' y') := by
  constructor
  · intro hout
    constructor
    · unfold PPM.At
      rw [if_pos hout]
    · unfold PPM.SetPixel
      rw [if_neg (by dsimp only; omega)]
  · intro hx0 hxw hy0 hyh
    have hin : ¬(x < 0 ∨ (p.width : Int) ≤ x ∨ y < 0 ∨ (p.height : Int) ≤ y) := by
      omega
    have hset : p.SetPixel ⟨x, y⟩ c =
        { p with data := setPix p.data y.toNat x.toNat c } := by
      unfold PPM.SetPixel
      rw [if_pos (by dsimp only; omega)]
    have hyd : y.toNat < p.data.length := by
      obtain ⟨-, -, hlen, -, -, -, -⟩ := hw
      omega
    have hxr : x.toNat < (p.data.getD y.toNat []).length := by
      rw [row_length_of_wf hw (by omega)]
      omega
    refine ⟨by unfold PPM.At; rw [if_neg hin], ?_, ?_⟩
    · rw [hset]
      unfold PPM.At
      dsimp only
      rw [if_neg hin, getPix_setPix_self p.data y.toNat x.toNat c hyd hxr]
    · intro x' y' hne
      rw [hset]
      unfold PPM.At
      dsimp only
      by_cases hin' : x' < 0 ∨ (p.width : Int) ≤ x' ∨ y' < 0 ∨ (p.height : Int) ≤ y'
      · rw [if_pos hin', if_pos hin']
      · rw [if_neg hin', if_neg hin']
        have hsep : y'.toNat ≠ y.toNat ∨ x'.toNat ≠ x.toNat := by
          rcases Decidable.em (y'.toNat = y.toNat) with hyy | hyy
          · right
            rcases hne with h | h
            · omega
            · omega
          · exact Or.inl hyy
        rw [getPix_setPix_ne p.data y.toNat x.toNat y'.toNat x'.toNat c hsep]

/-- Witness: on the 2×2 example, access at `(5, 0)` fails to read and
silently skips the write; at `(1, 1)` the written pixel is read back. -/
theorem pixel_access_bounds_witness :
    (exBlack2x2.At 5 0 = none ∧ exBlack2x2.SetPixel ⟨5, 0⟩ pixRed = exBlack2x2)
    ∧ (exBlack2x2.SetPixel ⟨1, 1⟩ pixRed).At 1 1 = some pixRed :=
  ⟨(pixel_access_bounds exBlack2x2 (by decide) 5 0 pixRed).1 (by decide),
   ((pixel_access_bounds exBlack2x2 (by decide) 1 1 pixRed).2 (by decide)
     (by decide) (by decide) (by decide)).2.1⟩

/-! ### C3: DrawFilledRectangle clipping -/

/-- C3 (code bug): `DrawFilledRectangle` tests the rectangle edges against
the canvas only with strict `<` and `>` branches, so the boundary case in
which an edge lands exactly on the canvas edge falls through both branches
and paints nothing.  On the all-black 2×2 canvas, a 1×2 rectangle at the
origin (bottom edge exactly at the canvas bottom) and a 2×1 rectangle at the
origin (right edge exactly at the canvas right) both leave the buffer
completely unchanged — pixel `(0,0)` stays black — although their
intersections with the canvas are nonempty, contradicting the clip-and-fill
contract. -/
theorem drawFilledRectangle_boundary_unpainted :
    exBlack2x2.DrawFilledRectangle ⟨0, 0⟩ 1 2 pixRed = exBlack2x2
    ∧ exBlack2x2.DrawFilledRectangle ⟨0, 0⟩ 2 1 pixRed = exBlack2x2
    ∧ (exBlack2x2.DrawFilledRectangle ⟨0, 0⟩ 1 2 pixRed).At 0 0 = some pixZero
    ∧ pixZero ≠ pixRed := by
  refine ⟨by decide, by decide, by decide, by decide⟩

/-! ### C7: zero interpolation denominator in DrawFilledTriangle -/

/-- C7 (code bug): `FilledTriangleTools` computes
`(p2.X-p1.X) / (p2.Y-p1.Y)` with no guard.  Sorting the flat-bottom triangle
`(0,0), (0,1), (2,1)` by Y makes the middle and bottom vertices share
`Y = 1`, and `DrawFilledTriangle`'s scanline loop then evaluates the tool on
that equal-Y edge for every scanline `y ∈ {0, 1}`: the denominator is zero
and the division is performed, producing non-finite floats (an infinity at
`y = 0`, NaN at `y = 1`) whose integer conversion Go leaves
implementation-defined — not the claimed guarded already-horizontal
treatment. -/
theorem filledTriangleTools_zero_denominator :
    sortByY [⟨0, 0⟩, ⟨0, 1⟩, ⟨2, 1⟩] = [⟨0, 0⟩, ⟨2, 1⟩, ⟨0, 1⟩]
    ∧ (⟨2, 1⟩ : Point).Y = (⟨0, 1⟩ : Point).Y
    ∧ FilledTriangleTools ⟨2, 1⟩ ⟨0, 1⟩ 0 = GoFloat.posInf
    ∧ FilledTriangleTools ⟨2, 1⟩ ⟨0, 1⟩ 1 = GoFloat.nan
    ∧ (FilledTriangleTools ⟨2, 1⟩ ⟨0, 1⟩ 0).isFinite = false
    ∧ (FilledTriangleTools ⟨2, 1⟩ ⟨0, 1⟩ 1).isFinite = false := by
  refine ⟨by decide, by decide, by decide, by decide, by decide, by decide⟩

/-! ### C9: depth-0 Koch snowflake equals the triangle outline -/

/-- C9: at recursion depth 0 each of the three Koch curves degenerates to
`DrawLine` between its endpoints, so `DrawKochSnowflake 0` produces exactly
the buffer `DrawTriangle` produces on the three vertices of the base
triangle built from `start` and `size`, the edges drawn in the same order
(`p1→p2`, `p2→p3`, `p3→p1`). -/
theorem drawKochSnowflake_zero_eq_drawTriangle (p : PPM) (start : Point)
    (size : Int) (color : Pixel) :
    p.DrawKochSnowflake 0 start size color =
      p.DrawTriangle (kochPoint1 start) (kochPoint2 start size)
        (kochPoint3 start size) color := rfl

/-! ### C6: truncated binary pixel data -/

/-- The binary-variant input whose header declares 2×2 at max intensity 255
but whose data region holds only 11 of the required 12 bytes. -/
def p6Truncated11 : List Nat :=
  [80, 54, 10, 50, 32, 50, 10, 50, 53, 53, 10,
   255, 0, 0, 0, 255, 0, 0, 0, 255, 255, 255]

/-- C6: decoding the 11-byte-data binary image fails with the truncation
error at row 1 ("unexpected end of file at row 1"): row 0 consumes its 6
bytes, row 1 finds only 5 of 6, and the decoder returns the error — the
`Except.error` result carries no buffer, so no partial image is produced. -/
theorem readPPM_truncated_at_row1 :
    ReadPPM p6Truncated11 = .error (.truncated 1) := by decide

/-! ### C8: resampling a constant image -/

/-- Backward-mapped source coordinates stay strictly inside the source
dimensions: `x * w / nw < w` whenever `x < nw`. -/
theorem sourceCoord_lt (x w nw : Nat) (hw : 0 < w) (hx : x < nw) :
    x * w / nw < w := by
  have hnw : 0 < nw := by omega
  rw [Nat.div_lt_iff_lt_mul hnw]
  calc x * w < nw * w := (Nat.mul_lt_mul_right hw).mpr hx
    _ = w * nw := Nat.mul_comm nw w

/-- Every in-range cell of an all-`C` grid reads `C`. -/
theorem getPix_const {p : PPM} (hw : p.Wf) {C : Pixel}
    (hconst : ∀ row ∈ p.data, ∀ px ∈ row, px = C)
    (ny nx : Nat) (hny : ny < p.height) (hnx : nx < p.width) :
    getPix p.data ny nx = C := by
  obtain ⟨-, -, hlen, hrows, -, -, -⟩ := hw
  have hylen : ny < p.data.length := by omega
  have hrow : p.data.getD ny [] = p.data[ny] := List.getD_eq_getElem _ [] hylen
  have hrmem : p.data[ny] ∈ p.data := p.data.getElem_mem hylen
  have hxlen : nx < p.data[ny].length := by
    rw [hrows _ hrmem]; exact hnx
  unfold getPix
  rw [hrow, List.getD_eq_getElem _ pixZero hxlen]
  exact hconst _ hrmem _ (p.data[ny].getElem_mem hxlen)

/-- On an all-`C` buffer, the clipped 3×3 neighborhood of an in-range source
coordinate is nonempty and consists only of `C`. -/
theorem findKNearestNeighbors_const {p : PPM} (hw : p.Wf) {C : Pixel}
    (hconst : ∀ row ∈ p.data, ∀ px ∈ row, px = C)
    (x y : Int) (hx0 : 0 ≤ x) (hxw : x < (p.width : Int))
    (hy0 : 0 ≤ y) (hyh : y < (p.height : Int)) :
    p.findKNearestNeighbors x y ≠ [] ∧
    ∀ q ∈ p.findKNearestNeighbors x y, q = C := by
  constructor
  · have hmem : getPix p.data (y + 0).toNat (x + 0).toNat ∈
        p.findKNearestNeighbors x y := by
      unfold PPM.findKNearestNeighbors
      refine List.mem_filterMap.mpr ⟨(0, 0), by decide, ?_⟩
      simp only
      rw [if_pos (by constructor <;> omega)]
    exact fun hnil => by rw [hnil] at hmem; exact absurd hmem (List.not_mem_nil _)
  · intro q hq
    unfold PPM.findKNearestNeighbors at hq
    obtain ⟨dd, -, heq⟩ := List.mem_filterMap.mp hq
    simp only at heq
    by_cases hcond : 0 ≤ x + dd.2 ∧ x + dd.2 < (p.width : Int) ∧
        0 ≤ y + dd.1 ∧ y + dd.1 < (p.height : Int)
    · rw [if_pos hcond] at heq
      obtain ⟨h1, h2, h3, h4⟩ := hcond
      have := getPix_const hw hconst (y + dd.1).toNat (x + dd.2).toNat
        (by omega) (by omega)
      rw [this] at heq
      exact (Option.some.injEq _ _ ▸ heq).symm
    · rw [if_neg hcond] at heq
      exact absurd heq (Option.noConfusion)

/-- The integer-truncated average of a nonempty list of copies of a `uint8`
color is that color. -/
theorem averageColors_const (l : List Pixel) (C : Pixel) (hC : PixelWf C)
    (hne : l ≠ []) (hall : ∀ q ∈ l, q = C) :
    averageColors l = C := by
  have hrep : l = List.replicate l.length C := List.eq_replicate_of_mem hall
  have hpos : 0 < l.length := List.length_pos.mpr hne
  obtain ⟨h1, h2, h3⟩ := hC
  unfold averageColors
  rw [hrep]
  simp only [List.map_replicate, List.sum_replicate, List.length_replicate,
    smul_eq_mul]
  obtain ⟨r, g, b⟩ := C
  dsimp only at h1 h2 h3 ⊢
  rw [Nat.mul_div_cancel_left r hpos, Nat.mul_div_cancel_left g hpos,
    Nat.mul_div_cancel_left b hpos, Nat.mod_eq_of_lt (by omega),
    Nat.mod_eq_of_lt (by omega), Nat.mod_eq_of_lt (by omega)]

/-- C8: resizing an all-`C` well-formed buffer to any positive target
dimensions succeeds and yields a buffer of the target dimensions in which
every pixel is still `C`: every backward-mapped source coordinate stays in
bounds, so each destination pixel averages a nonempty all-`C` neighborhood,
and the truncated integer average of copies of `C` is `C`. -/
theorem resize_constant_preserved (p : PPM) (hw : p.Wf) (C : Pixel)
    (hconst : ∀ row ∈ p.data, ∀ px ∈ row, px = C)
    (newWidth newHeight : Int) (hnw : 0 < newWidth) (hnh : 0 < newHeight) :
    (p.KNearestNeighbors newWidth newHeight).invalidReported = false
    ∧ (p.KNearestNeighbors newWidth newHeight).buffer.width = newWidth.toNat
    ∧ (p.KNearestNeighbors newWidth newHeight).buffer.height = newHeight.toNat
    ∧ (∀ x < newWidth.toNat, x * p.width / newWidth.toNat < p.width)
    ∧ (∀ y < newHeight.toNat, y * p.height / newHeight.toNat < p.height)
    ∧ ∀ row ∈ (p.KNearestNeighbors newWidth newHeight).buffer.data,
        ∀ px ∈ row, px = C := by
  have hw0 : 0 < p.width := hw.1
  have hh0 : 0 < p.height := hw.2.1
  have hCwf : PixelWf C := by
    obtain ⟨-, -, hlen, hrows, hpx, -, -⟩ := id hw
    have hdne : 0 < p.data.length := by omega
    have hrmem : p.data[0] ∈ p.data := p.data.getElem_mem hdne
    have hrne : 0 < p.data[0].length := by rw [hrows _ hrmem]; omega
    have hpmem : p.data[0][0] ∈ p.data[0] := p.data[0].getElem_mem hrne
    have := hconst _ hrmem _ hpmem
    rw [← this]
    exact hpx _ hrmem _ hpmem
  have hcond : ¬(newWidth ≤ 0 ∨ newHeight ≤ 0) := by omega
  unfold PPM.KNearestNeighbors
  rw [if_neg hcond]
  refine ⟨rfl, rfl, rfl, ?_, ?_, ?_⟩
  · intro x hx
    exact sourceCoord_lt x p.width newWidth.toNat hw0 hx
  · intro y hy
    exact sourceCoord_lt y p.height newHeight.toNat hh0 hy
  · intro row hrow px hpx
    dsimp only at hrow
    obtain ⟨y, hy, hroweq⟩ := List.mem_map.mp hrow
    rw [← hroweq] at hpx
    obtain ⟨x, hxr, hpxeq⟩ := List.mem_map.mp hpx
    rw [List.mem_range] at hy hxr
    have hox : x * p.width / newWidth.toNat < p.width :=
      sourceCoord_lt x p.width newWidth.toNat hw0 hxr
    have hoy : y * p.height / newHeight.toNat < p.height :=
      sourceCoord_lt y p.height newHeight.toNat hh0 hy
    have hfind := findKNearestNeighbors_const hw hconst
      ((x * p.width / newWidth.toNat : Nat) : Int)
      ((y * p.height / newHeight.toNat : Nat) : Int)
      (Int.natCast_nonneg _) (by exact_mod_cast hox)
      (Int.natCast_nonneg _) (by exact_mod_cast hoy)
    rw [← hpxeq]
    exact averageColors_const _ C hCwf hfind.1 hfind.2

/-- Witness: resizing the constant 3×2 example to 5×4 keeps every pixel
equal to `⟨9, 200, 47⟩`. -/
theorem resize_constant_preserved_witness :
    (exConst3x2.KNearestNeighbors 5 4).invalidReported = false
    ∧ ∀ row ∈ (exConst3x2.KNearestNeighbors 5 4).buffer.data,
        ∀ px ∈ row, px = (⟨9, 200, 47⟩ : Pixel) :=
  ⟨(resize_constant_preserved exConst3x2 (by decide) ⟨9, 200, 47⟩ (by decide)
      5 4 (by decide) (by decide)).1,
   (resize_constant_preserved exConst3x2 (by decide) ⟨9, 200, 47⟩ (by decide)
      5 4 (by decide) (by decide)).2.2.2.2.2⟩

/-! ### Codec lemmas -/

/-- `ReadString('\n')` on a newline-free prefix followed by a newline. -/
theorem readLine_append (l r : List Nat) (h : ∀ c ∈ l, c ≠ 10) :
    readLine (l ++ 10 :: r) = some (l, r) := by
  induction l with
  | nil => simp [readLine]
  | cons c cs ih =>
    have hc : c ≠ 10 := h c (by simp)
    simp only [List.cons_append, readLine, List.append_eq]
    rw [if_neg hc, ih (fun d hd => h d (by simp [hd]))]

/-- Rendered decimals consist of ASCII digits. -/
theorem renderNatAux_digits (fuel : Nat) :
    ∀ n, n < fuel → ∀ c ∈ renderNatAux fuel n, 48 ≤ c ∧ c ≤ 57 := by
  induction fuel with
  | zero => intro n hn; omega
  | succ f ih =>
    intro n hn c hc
    unfold renderNatAux at hc
    by_cases h10 : n < 10
    · rw [if_pos h10] at hc
      simp only [List.mem_singleton] at hc
      omega
    · rw [if_neg h10] at hc
      rcases List.mem_append.mp hc with h1 | h2
      · have hd : n / 10 < n := Nat.div_lt_self (by omega) (by norm_num)
        exact ih (n / 10) (by omega) c h1
      · simp only [List.mem_singleton] at h2
        have := Nat.mod_lt n (show 0 < 10 by norm_num)
        omega

/-- Rendered decimals are nonempty. -/
theorem renderNatAux_ne_nil (fuel n : Nat) (h : n < fuel) :
    renderNatAux fuel n ≠ [] := by
  cases fuel with
  | zero => omega
  | succ f =>
    unfold renderNatAux
    by_cases h10 : n < 10
    · rw [if_pos h10]; simp
    · rw [if_neg h10]; simp

/-- `renderNat` produces ASCII digits. -/
theorem renderNat_digits (n : Nat) : ∀ c ∈ renderNat n, 48 ≤ c ∧ c ≤ 57 :=
  renderNatAux_digits (n + 1) n (Nat.lt_succ_self n)

/-- `renderNat` is nonempty. -/
theorem renderNat_ne_nil (n : Nat) : renderNat n ≠ [] :=
  renderNatAux_ne_nil (n + 1) n (Nat.lt_succ_self n)

/-- The accumulator threads through appended digit runs. -/
theorem parseDigitsAux_append (acc : Nat) (l1 l2 : List Nat) :
    parseDigitsAux acc (l1 ++ l2) = parseDigitsAux (parseDigitsAux acc l1) l2 := by
  induction l1 generalizing acc with
  | nil => rfl
  | cons c cs ih =>
    show parseDigitsAux (acc * 10 + (c - 48)) (cs ++ l2) =
      parseDigitsAux (parseDigitsAux (acc * 10 + (c - 48)) cs) l2
    exact ih (acc * 10 + (c - 48))

/-- Parsing a rendered decimal recovers the value (with the accumulator
shifted by the digit count). -/
theorem parseDigitsAux_renderNatAux (fuel : Nat) :
    ∀ n, n < fuel → ∀ acc, parseDigitsAux acc (renderNatAux fuel n) =
      acc * 10 ^ (renderNatAux fuel n).length + n := by
  induction fuel with
  | zero => intro n hn; omega
  | succ f ih =>
    intro n hn acc
    unfold renderNatAux
    by_cases h10 : n < 10
    · rw [if_pos h10]
      show acc * 10 + (48 + n - 48) = acc * 10 ^ ([48 + n] : List Nat).length + n
      simp only [List.length_singleton, pow_one]
      omega
    · rw [if_neg h10]
      have hd : n / 10 < n := Nat.div_lt_self (by omega) (by norm_num)
      rw [parseDigitsAux_append, ih (n / 10) (by omega) acc]
      show (acc * 10 ^ (renderNatAux f (n / 10)).length + n / 10) * 10 +
          (48 + n % 10 - 48) =
        acc * 10 ^ (renderNatAux f (n / 10) ++ [48 + n % 10]).length + n
      rw [List.length_append, List.length_singleton, pow_succ, ← mul_assoc]
      generalize acc * 10 ^ (renderNatAux f (n / 10)).length = A
      omega

/-- Parsing a rendered decimal recovers the value. -/
theorem parseDigitsAux_renderNat (n : Nat) :
    parseDigitsAux 0 (renderNat n) = n := by
  rw [renderNat, parseDigitsAux_renderNatAux (n + 1) n (Nat.lt_succ_self n) 0]
  simp

/-- A run satisfying the predicate followed by a non-satisfying head splits
cleanly under `takeWhile` and `dropWhile`. -/
theorem takeWhile_dropWhile_append {p : Nat → Bool} (l r : List Nat)
    (hl : ∀ c ∈ l, p c = true)
    (hr : ∀ c, r.head? = some c → p c = false) :
    (l ++ r).takeWhile p = l ∧ (l ++ r).dropWhile p = r := by
  induction l with
  | nil =>
    simp only [List.nil_append]
    cases r with
    | nil => simp
    | cons c t =>
      have := hr c rfl
      rw [List.takeWhile_cons, List.dropWhile_cons, if_neg (by simp [this]),
        if_neg (by simp [this])]
      exact ⟨rfl, rfl⟩
  | cons c cs ih =>
    have hc := hl c (by simp)
    obtain ⟨ht, hd⟩ := ih (fun d hd => hl d (by simp [hd]))
    rw [List.cons_append, List.takeWhile_cons, List.dropWhile_cons,
      if_pos hc, if_pos hc, ht, hd]
    exact ⟨rfl, rfl⟩

/-- ASCII digits are not whitespace. -/
theorem isSpace_of_digit {c : Nat} (h : 48 ≤ c ∧ c ≤ 57) : isSpace c = false := by
  unfold isSpace
  simp only [Bool.or_eq_false_iff, decide_eq_false_iff_not]
  omega

/-- ASCII digits satisfy `isDigit`. -/
theorem isDigit_of_digit {c : Nat} (h : 48 ≤ c ∧ c ≤ 57) : isDigit c = true := by
  unfold isDigit
  simp only [Bool.and_eq_true, decide_eq_true_eq]
  omega

/-- `dropWhile` is the identity when the head does not satisfy the
predicate. -/
theorem dropWhile_eq_self_of_head {p : Nat → Bool} (s : List Nat)
    (h : ∀ c, s.head? = some c → p c = false) : s.dropWhile p = s := by
  cases s with
  | nil => rfl
  | cons c t => rw [List.dropWhile_cons, if_neg (by simp [h c rfl])]

/-- A digit run scans to its value, leaving a non-digit-headed rest. -/
theorem scanNatRaw_render (n : Nat) (r : List Nat)
    (hr : ∀ c, r.head? = some c → isDigit c = false) :
    scanNatRaw (renderNat n ++ r) = some (n, r) := by
  have hall : ∀ c ∈ renderNat n, isDigit c = true :=
    fun c hc => isDigit_of_digit (renderNat_digits n c hc)
  obtain ⟨ht, hd⟩ := takeWhile_dropWhile_append (renderNat n) r hall hr
  unfold scanNatRaw
  rw [ht, hd, if_neg (renderNat_ne_nil n), parseDigitsAux_renderNat]

/-- The head of a rendered decimal is a digit, hence `skipSpaces` and the
sign test of `scanInt` pass over it unchanged. -/
theorem skipSpaces_render (n : Nat) (r : List Nat) :
    skipSpaces (renderNat n ++ r) = renderNat n ++ r := by
  apply dropWhile_eq_self_of_head
  intro c hc
  obtain ⟨b, L, hbl⟩ := List.exists_cons_of_ne_nil (renderNat_ne_nil n)
  rw [hbl] at hc
  simp only [List.cons_append, List.head?_cons, Option.some.injEq] at hc
  subst hc
  exact isSpace_of_digit (renderNat_digits n b (by rw [hbl]; simp))

/-- `scanInt` on a rendered decimal followed by a non-digit-headed rest. -/
theorem scanInt_render (n : Nat) (r : List Nat)
    (hr : ∀ c, r.head? = some c → isDigit c = false) :
    scanInt (renderNat n ++ r) = some ((n : Int), r) := by
  unfold scanInt
  rw [skipSpaces_render]
  have h45 : (renderNat n ++ r).head? ≠ some 45 := by
    obtain ⟨b, L, hbl⟩ := List.exists_cons_of_ne_nil (renderNat_ne_nil n)
    rw [hbl]
    have := renderNat_digits n b (by rw [hbl]; simp)
    simp only [List.cons_append, List.head?_cons, ne_eq, Option.some.injEq]
    omega
  rw [if_neg h45, scanNatRaw_render n r hr]

/-- `scanInt` skips one leading space. -/
theorem scanInt_space_render (n : Nat) (r : List Nat)
    (hr : ∀ c, r.head? = some c → isDigit c = false) :
    scanInt (32 :: (renderNat n ++ r)) = some ((n : Int), r) := by
  unfold scanInt
  have hskip : skipSpaces (32 :: (renderNat n ++ r)) = renderNat n ++ r := by
    unfold skipSpaces
    rw [List.dropWhile_cons, if_pos (by decide)]
    exact skipSpaces_render n r
  rw [hskip]
  have h45 : (renderNat n ++ r).head? ≠ some 45 := by
    obtain ⟨b, L, hbl⟩ := List.exists_cons_of_ne_nil (renderNat_ne_nil n)
    rw [hbl]
    have := renderNat_digits n b (by rw [hbl]; simp)
    simp only [List.cons_append, List.head?_cons, ne_eq, Option.some.injEq]
    omega
  rw [if_neg h45, scanNatRaw_render n r hr]

/-- `scanU8` on a rendered decimal within the `uint8` range. -/
theorem scanU8_render (n : Nat) (hn : n ≤ 255) (r : List Nat)
    (hr : ∀ c, r.head? = some c → isDigit c = false) :
    scanU8 (renderNat n ++ r) = some (n, r) := by
  unfold scanU8
  rw [show skipSpaces (renderNat n ++ r) = renderNat n ++ r from
    skipSpaces_render n r, scanNatRaw_render n r hr]
  simp only [if_pos hn]

/-- `trimSpace` is the identity when neither end is whitespace. -/
theorem trimSpace_eq_self (s : List Nat)
    (h1 : ∀ c, s.head? = some c → isSpace c = false)
    (h2 : ∀ c, s.getLast? = some c → isSpace c = false) :
    trimSpace s = s := by
  unfold trimSpace
  rw [dropWhile_eq_self_of_head s h1,
    dropWhile_eq_self_of_head s.reverse (by rw [List.head?_reverse]; exact h2),
    List.reverse_reverse]

/-- `fieldsAux` splits off one whitespace-free token at a separating
space. -/
theorem fieldsAux_token : ∀ (tok acc rest : List Nat),
    (∀ c ∈ tok, isSpace c = false) → ¬(acc = [] ∧ tok = []) →
    fieldsAux acc (tok ++ 32 :: rest) =
      (acc.reverse ++ tok) :: fieldsAux [] rest := by
  intro tok
  induction tok with
  | nil =>
    intro acc rest htok hne
    have hacc : acc ≠ [] := fun h => hne ⟨h, rfl⟩
    show (if isSpace 32 = true then
        if acc.isEmpty = true then fieldsAux [] rest
        else acc.reverse :: fieldsAux [] rest
      else fieldsAux (32 :: acc) rest) = (acc.reverse ++ []) :: fieldsAux [] rest
    rw [if_pos (by decide), if_neg (by rw [List.isEmpty_eq_true]; exact hacc),
      List.append_nil]
  | cons c cs ih =>
    intro acc rest htok hne
    have hc : isSpace c = false := htok c (by simp)
    show (if isSpace c = true then
        if acc.isEmpty = true then fieldsAux [] (cs ++ 32 :: rest)
        else acc.reverse :: fieldsAux [] (cs ++ 32 :: rest)
      else fieldsAux (c :: acc) (cs ++ 32 :: rest)) =
      (acc.reverse ++ c :: cs) :: fieldsAux [] rest
    rw [if_neg (by rw [hc]; exact Bool.false_ne_true),
      ih (c :: acc) rest (fun d hd => htok d (by simp [hd])) (by simp),
      List.reverse_cons, List.append_assoc, List.singleton_append]

/-- `strings.Fields` splits off one leading token at a separating space. -/
theorem fields_token (tok rest : List Nat)
    (htok : ∀ c ∈ tok, isSpace c = false) (hne : tok ≠ []) :
    fields (tok ++ 32 :: rest) = tok :: fields rest := by
  unfold fields
  rw [fieldsAux_token tok [] rest htok (fun h => hne h.2)]
  rfl

/-- Characters of an encoded textual pixel: digits and separating spaces. -/
theorem encodePixelP3_chars (px : Pixel) :
    ∀ c ∈ encodePixelP3 px, (48 ≤ c ∧ c ≤ 57) ∨ c = 32 := by
  intro c hc
  unfold encodePixelP3 at hc
  rcases List.mem_append.mp hc with h | h
  · exact Or.inl (renderNat_digits _ c h)
  rcases List.mem_cons.mp h with h | h
  · exact Or.inr h
  rcases List.mem_append.mp h with h | h
  · exact Or.inl (renderNat_digits _ c h)
  rcases List.mem_cons.mp h with h | h
  · exact Or.inr h
  rcases List.mem_append.mp h with h | h
  · exact Or.inl (renderNat_digits _ c h)
  exact Or.inr (List.mem_singleton.mp h)

/-- Characters of an encoded textual row body: digits and spaces. -/
theorem p3Body_chars (row : List Pixel) :
    ∀ c ∈ (row.map encodePixelP3).flatten, (48 ≤ c ∧ c ≤ 57) ∨ c = 32 := by
  intro c hc
  obtain ⟨l, hl, hcl⟩ := List.mem_flatten.mp hc
  obtain ⟨px, -, hpx⟩ := List.mem_map.mp hl
  exact encodePixelP3_chars px c (hpx ▸ hcl)

/-- A textual row body contains no newline. -/
theorem p3Body_no_newline (row : List Pixel) :
    ∀ c ∈ (row.map encodePixelP3).flatten, c ≠ 10 := by
  intro c hc
  rcases p3Body_chars row c hc with ⟨h1, -⟩ | rfl
  · omega
  · omega

/-- Splitting an encoded textual row body into fields recovers the rendered
channel tokens in order. -/
theorem fields_p3Body (row : List Pixel) :
    fields ((row.map encodePixelP3).flatten) =
      (row.map (fun px =>
        [renderNat px.R, renderNat px.G, renderNat px.B])).flatten := by
  induction row with
  | nil => rfl
  | cons px t ih =>
    show fields (encodePixelP3 px ++ (t.map encodePixelP3).flatten) =
      renderNat px.R :: renderNat px.G :: renderNat px.B ::
        (t.map (fun q =>
          [renderNat q.R, renderNat q.G, renderNat q.B])).flatten
    have hR := fun c hc => isSpace_of_digit (renderNat_digits px.R c hc)
    have hG := fun c hc => isSpace_of_digit (renderNat_digits px.G c hc)
    have hB := fun c hc => isSpace_of_digit (renderNat_digits px.B c hc)
    have hshape : encodePixelP3 px ++ (t.map encodePixelP3).flatten =
        renderNat px.R ++ 32 :: (renderNat px.G ++ 32 ::
          (renderNat px.B ++ 32 :: (t.map encodePixelP3).flatten)) := by
      unfold encodePixelP3
      simp [List.append_assoc]
    rw [hshape, fields_token _ _ hR (renderNat_ne_nil _),
      fields_token _ _ hG (renderNat_ne_nil _),
      fields_token _ _ hB (renderNat_ne_nil _), ih]

/-- Parsing the rendered channel tokens of a row recovers the row, from any
starting column. -/
theorem parseP3RowAux_tokens (y : Nat) (row : List Pixel)
    (hwf : ∀ px ∈ row, PixelWf px) :
    ∀ x, parseP3RowAux y x row.length
      ((row.map (fun px =>
        [renderNat px.R, renderNat px.G, renderNat px.B])).flatten) =
      .ok row := by
  induction row with
  | nil => intro x; rfl
  | cons px t ih =>
    intro x
    obtain ⟨h1, h2, h3⟩ := hwf px (by simp)
    have e1 : scanU8 (renderNat px.R) = some (px.R, []) := by
      have := scanU8_render px.R h1 [] (by intro c hc; cases hc)
      rwa [List.append_nil] at this
    have e2 : scanU8 (renderNat px.G) = some (px.G, []) := by
      have := scanU8_render px.G h2 [] (by intro c hc; cases hc)
      rwa [List.append_nil] at this
    have e3 : scanU8 (renderNat px.B) = some (px.B, []) := by
      have := scanU8_render px.B h3 [] (by intro c hc; cases hc)
      rwa [List.append_nil] at this
    show parseP3RowAux y x (t.length + 1)
      (renderNat px.R :: renderNat px.G :: renderNat px.B ::
        (t.map (fun q =>
          [renderNat q.R, renderNat q.G, renderNat q.B])).flatten) = _
    simp only [parseP3RowAux]
    rw [e1, e2, e3, ih (fun q hq => hwf q (by simp [hq])) (x + 1)]

/-- The tail-recursive length worker counts on top of its accumulator. -/
theorem lenTAux_eq (l : List Nat) : ∀ acc, lenTAux acc l = acc + l.length := by
  induction l with
  | nil => intro acc; simp [lenTAux]
  | cons a t ih =>
    intro acc
    show lenTAux (acc + 1) t = acc + (t.length + 1)
    rw [ih (acc + 1)]
    omega

/-- The tail-recursive length is the length. -/
theorem lenT_eq (l : List Nat) : lenT l = l.length := by
  rw [lenT, lenTAux_eq]
  omega

/-- A newline found in a prefix is found in the whole string, with the tail
extended past it. -/
theorem readLine_append_some (b s pre post : List Nat)
    (h : readLine b = some (pre, post)) :
    readLine (b ++ s) = some (pre, post ++ s) := by
  induction b generalizing pre post with
  | nil => cases h
  | cons c cs ih =>
    simp only [readLine] at h
    simp only [List.cons_append, readLine, List.append_eq]
    by_cases hc : c = 10
    · rw [if_pos hc] at h ⊢
      cases h
      rfl
    · rw [if_neg hc] at h ⊢
      cases hcs : readLine cs with
      | none => rw [hcs] at h; cases h
      | some pr =>
        obtain ⟨l, r⟩ := pr
        rw [hcs] at h
        rw [Option.some.injEq, Prod.mk.injEq] at h
        obtain ⟨hpre, hpost⟩ := h
        subst hpre
        subst hpost
        rw [ih l r hcs]

/-- With no newline in the prefix, the line of the whole string is the
prefix joined to the tail's line. -/
theorem readLine_append_split (b s : List Nat) (hb : readLine b = none) :
    readLine (b ++ s) =
      (readLine s).map (fun p => (b ++ p.1, p.2)) := by
  induction b with
  | nil =>
    simp only [List.nil_append]
    cases hs : readLine s with
    | none => rfl
    | some p => rfl
  | cons c cs ih =>
    simp only [readLine] at hb
    simp only [List.cons_append, readLine, List.append_eq]
    by_cases hc : c = 10
    · rw [if_pos hc] at hb
      cases hb
    · rw [if_neg hc] at hb ⊢
      cases hcs : readLine cs with
      | some pr => rw [hcs] at hb; cases hb
      | none =>
        rw [ih hcs]
        cases hs : readLine s with
        | none => rfl
        | some p => rfl

/-- The `ReadString` loop returns exactly the line before the first newline
of the not-yet-consumed bytes (buffered and unread together), prefixed by
the accumulator; the remainder ends up split between the new buffer and the
unread file in some fill-dependent way, but its concatenation is
determined. -/
theorem readLineAux_spec : ∀ (fuel : Nat) (acc b s l rest : List Nat),
    b.length + 2 * s.length + 1 ≤ fuel →
    readLine (b ++ s) = some (l, rest) →
    ∃ b2 s2, b2 ++ s2 = rest ∧
      readLineAux fuel acc ⟨b, s⟩ = some (acc ++ l, ⟨b2, s2⟩) := by
  intro fuel
  induction fuel with
  | zero =>
    intro acc b s l rest hfuel h
    omega
  | succ f ih =>
    intro acc b s l rest hfuel h
    cases hb : readLine b with
    | some pr =>
      obtain ⟨pre, post⟩ := pr
      rw [readLine_append_some b s pre post hb] at h
      rw [Option.some.injEq, Prod.mk.injEq] at h
      obtain ⟨hl, hrest⟩ := h
      refine ⟨post, s, hrest, ?_⟩
      simp only [readLineAux, lenT_eq]
      rw [hb, hl]
    | none =>
      have h0 := h
      rw [readLine_append_split b s hb] at h
      cases hs : readLine s with
      | none => rw [hs] at h; cases h
      | some p =>
        obtain ⟨l2, r2⟩ := p
        rw [hs] at h
        have h' : some (b ++ l2, r2) = some (l, rest) := h
        rw [Option.some.injEq, Prod.mk.injEq] at h'
        obtain ⟨hl, hrest⟩ := h'
        by_cases hfull : 4096 ≤ b.length
        · obtain ⟨b2, s2, hc2, heq⟩ := ih (acc ++ b) [] s l2 r2
            (by simp only [List.length_nil]; omega)
            (by rw [List.nil_append]; exact hs)
          refine ⟨b2, s2, hc2.trans hrest, ?_⟩
          simp only [readLineAux, lenT_eq]
          rw [hb, if_pos hfull, heq, List.append_assoc, hl]
        · have hsne : s ≠ [] := by
            intro hnil
            rw [hnil] at hs
            cases hs
          have hslen : 1 ≤ s.length := by
            cases s with
            | nil => exact absurd rfl hsne
            | cons a as => simp
          have ht1 : 1 ≤ min (4096 - b.length) s.length := by omega
          have htle : min (4096 - b.length) s.length ≤ s.length := min_le_right _ _
          have hsplit : (b ++ s.take (min (4096 - b.length) s.length)) ++
              s.drop (min (4096 - b.length) s.length) = b ++ s := by
            rw [List.append_assoc, List.take_append_drop]
          obtain ⟨b2, s2, hc2, heq⟩ := ih acc
            (b ++ s.take (min (4096 - b.length) s.length))
            (s.drop (min (4096 - b.length) s.length)) l rest
            (by
              rw [List.length_append, List.length_take, List.length_drop]
              omega)
            (by rw [hsplit]; exact h0)
          refine ⟨b2, s2, hc2, ?_⟩
          simp only [readLineAux, lenT_eq]
          rw [hb, if_neg hfull,
            if_neg (by simp only [List.isEmpty_eq_true]; exact hsne)]
          exact heq

/-- `ReadString` over an arbitrary reader state: observable behavior depends
only on the concatenation of buffered and unread bytes. -/
theorem bufReadString_spec (b s l rest : List Nat)
    (h : readLine (b ++ s) = some (l, rest)) :
    ∃ b2 s2, b2 ++ s2 = rest ∧
      bufReadString ⟨b, s⟩ = some (l, ⟨b2, s2⟩) := by
  obtain ⟨b2, s2, hc, heq⟩ := readLineAux_spec
    (lenT b + 2 * lenT s + 1) [] b s l rest
    (by rw [lenT_eq, lenT_eq]) h
  refine ⟨b2, s2, hc, ?_⟩
  show readLineAux (lenT b + 2 * lenT s + 1) [] ⟨b, s⟩ = _
  rw [heq, List.nil_append]

/-- One `ReadString` step when the delimiter is already buffered. -/
theorem readLineAux_found (fuel : Nat) (acc b s l rest : List Nat)
    (h : readLine b = some (l, rest)) (hf : 1 ≤ fuel) :
    readLineAux fuel acc ⟨b, s⟩ = some (acc ++ l, ⟨rest, s⟩) := by
  cases fuel with
  | zero => omega
  | succ f =>
    simp only [readLineAux]
    rw [h]

/-- `ReadString` when the file side is already exhausted: the old
split-at-newline behavior, buffer to buffer. -/
theorem bufReadString_nosrc (b l rest : List Nat)
    (h : readLine b = some (l, rest)) :
    bufReadString ⟨b, []⟩ = some (l, ⟨rest, []⟩) := by
  show readLineAux (lenT b + 2 * lenT [] + 1) [] ⟨b, []⟩ = _
  rw [readLineAux_found _ [] b [] l rest h (by omega), List.nil_append]

/-- The first `ReadString` of a file that fits in one 4096-byte buffer
fill: the whole file becomes the buffer, and the line is split off it. -/
theorem bufReadString_start (input l rest : List Nat)
    (hlen : input.length ≤ 4096) (h : readLine input = some (l, rest)) :
    bufReadString ⟨[], input⟩ = some (l, ⟨rest, []⟩) := by
  have hne : input ≠ [] := by
    intro hnil
    rw [hnil] at h
    cases h
  have hn1 : 1 ≤ input.length := by
    cases input with
    | nil => exact absurd rfl hne
    | cons a as => simp
  show readLineAux (lenT [] + 2 * lenT input + 1) [] ⟨[], input⟩ = _
  simp only [readLineAux, lenT_eq]
  rw [show readLine ([] : List Nat) = none from rfl]
  rw [if_neg (by simp), if_neg (by simp only [List.isEmpty_eq_true]; exact hne)]
  rw [show min (4096 - List.length ([] : List Nat)) input.length =
      input.length from by simp; omega]
  rw [List.take_length, List.drop_length, List.nil_append]
  rw [readLineAux_found _ [] input [] l rest h
    (by simp only [List.length_nil]; omega), List.nil_append]

/-- `Read` with a nonempty buffer: only the buffered bytes are delivered, up
to the request, with no refill. -/
theorem bufRead_buf (b s : List Nat) (nreq : Nat) (hb : b ≠ []) :
    bufRead ⟨b, s⟩ nreq =
      (b.take (min b.length nreq), ⟨b.drop (min b.length nreq), s⟩) := by
  unfold bufRead
  simp only [lenT_eq]
  rw [if_neg (by simp only [List.isEmpty_eq_true]; exact hb)]

/-- `ReadString` when the buffered window already holds a newline: the line
is split off the buffer and the file side is untouched. -/
theorem bufReadString_buffered (b s l rest : List Nat)
    (h : readLine b = some (l, rest)) :
    bufReadString ⟨b, s⟩ = some (l, ⟨rest, s⟩) := by
  show readLineAux (lenT b + 2 * lenT s + 1) [] ⟨b, s⟩ = _
  rw [readLineAux_found _ [] b s l rest h (by omega), List.nil_append]

/-- The first `ReadString` of a file longer than the buffer: exactly 4096
bytes are buffered, the line is split off them, and the remaining bytes stay
unread on the file side. -/
theorem bufReadString_big (input l rest : List Nat)
    (hlen : 4096 < input.length)
    (h : readLine (input.take 4096) = some (l, rest)) :
    bufReadString ⟨[], input⟩ = some (l, ⟨rest, input.drop 4096⟩) := by
  have hne : input ≠ [] := by
    intro hnil
    rw [hnil] at hlen
    simp at hlen
  show readLineAux (lenT [] + 2 * lenT input + 1) [] ⟨[], input⟩ = _
  simp only [readLineAux, lenT_eq]
  rw [show readLine ([] : List Nat) = none from rfl]
  rw [if_neg (by simp only [List.length_nil]; omega),
    if_neg (by simp only [List.isEmpty_eq_true]; exact hne)]
  rw [show min (4096 - List.length ([] : List Nat)) input.length = 4096 from by
    simp only [List.length_nil]; omega]
  rw [List.nil_append]
  rw [readLineAux_found _ [] (input.take 4096) (input.drop 4096) l rest h
    (by simp only [List.length_nil]; omega), List.nil_append]

/-- One binary row loop step on a short read: fewer than `width*3` delivered
bytes is the truncation failure. -/
theorem parseP6Rows_step_short (w hR y : Nat) (r : Reader)
    (h : lenT (bufRead r (w * 3)).1 < w * 3) :
    parseP6Rows w (hR + 1) y r = .error (.truncated y) := by
  simp only [parseP6Rows]
  rw [if_pos h]

/-- Decoding the encoded textual rows recovers them, from any starting row
index and any reader state carrying exactly those bytes. -/
theorem parseP3Rows_encode (rows : List (List Pixel)) (w : Nat)
    (hlen : ∀ row ∈ rows, row.length = w)
    (hwf : ∀ row ∈ rows, ∀ px ∈ row, PixelWf px) :
    ∀ y (b s : List Nat), b ++ s = (rows.map encodeRowP3).flatten →
      parseP3Rows w rows.length y ⟨b, s⟩ = .ok rows := by
  induction rows with
  | nil => intro y b s hbs; rfl
  | cons row t ih =>
    intro y b s hbs
    have hshape : ((row :: t).map encodeRowP3).flatten =
        (row.map encodePixelP3).flatten ++ 10 :: (t.map encodeRowP3).flatten := by
      show encodeRowP3 row ++ (t.map encodeRowP3).flatten = _
      unfold encodeRowP3
      simp [List.append_assoc]
    have hrowlen : row.length = w := hlen row (by simp)
    have hrow : parseP3RowAux y 0 w
        (fields ((row.map encodePixelP3).flatten)) = .ok row := by
      rw [fields_p3Body, ← hrowlen]
      exact parseP3RowAux_tokens y row (fun px hpx => hwf row (by simp) px hpx) 0
    have hread : readLine (b ++ s) = some ((row.map encodePixelP3).flatten,
        (t.map encodeRowP3).flatten) := by
      rw [hbs, hshape]
      exact readLine_append _ _ (p3Body_no_newline row)
    obtain ⟨b2, s2, hc2, heq⟩ := bufReadString_spec b s _ _ hread
    show parseP3Rows w (t.length + 1) y ⟨b, s⟩ = _
    simp only [parseP3Rows]
    rw [heq]
    dsimp only
    rw [hrow]
    dsimp only
    rw [ih (fun r hr => hlen r (by simp [hr]))
      (fun r hr => hwf r (by simp [hr])) (y + 1) b2 s2 hc2]

/-- An encoded binary row has `width*3` bytes. -/
theorem encodeRowP6_length (row : List Pixel) :
    (encodeRowP6 row).length = row.length * 3 := by
  induction row with
  | nil => rfl
  | cons px t ih =>
    show ([px.R, px.G, px.B] ++ encodeRowP6 t).length = (t.length + 1) * 3
    rw [List.length_append, ih]
    simp only [List.length_cons, List.length_nil]
    omega

/-- Regrouping an encoded binary row recovers the pixels. -/
theorem bytesToPixels_encodeRowP6 (row : List Pixel) :
    bytesToPixels row.length (encodeRowP6 row) = row := by
  induction row with
  | nil => rfl
  | cons px t ih =>
    show bytesToPixels (t.length + 1)
      (px.R :: px.G :: px.B :: encodeRowP6 t) = px :: t
    simp only [bytesToPixels]
    rw [ih]

/-- Decoding the encoded binary rows recovers them when they are entirely
buffered (the file side exhausted), from any starting row index. -/
theorem parseP6Rows_encode (rows : List (List Pixel)) (w : Nat) (hw0 : 0 < w)
    (hlen : ∀ row ∈ rows, row.length = w) :
    ∀ y, parseP6Rows w rows.length y ⟨(rows.map encodeRowP6).flatten, []⟩ =
      .ok rows := by
  induction rows with
  | nil => intro y; rfl
  | cons row t ih =>
    intro y
    have hrw : row.length = w := hlen row (by simp)
    have hel : (encodeRowP6 row).length = w * 3 := by
      rw [encodeRowP6_length, hrw]
    have hbufne : encodeRowP6 row ++ (t.map encodeRowP6).flatten ≠ [] := by
      intro hnil
      have hlen0 : (encodeRowP6 row ++ (t.map encodeRowP6).flatten).length = 0 := by
        rw [hnil]
        rfl
      rw [List.length_append, hel] at hlen0
      omega
    have hmin : min (encodeRowP6 row ++ (t.map encodeRowP6).flatten).length
        (w * 3) = w * 3 := by
      rw [List.length_append, hel]
      omega
    have htake : (encodeRowP6 row ++ (t.map encodeRowP6).flatten).take (w * 3) =
        encodeRowP6 row := by
      rw [← hel, List.take_left]
    have hdrop : (encodeRowP6 row ++ (t.map encodeRowP6).flatten).drop (w * 3) =
        (t.map encodeRowP6).flatten := by
      rw [← hel, List.drop_left]
    have hbr := bufRead_buf (encodeRowP6 row ++ (t.map encodeRowP6).flatten)
      [] (w * 3) hbufne
    rw [hmin, htake, hdrop] at hbr
    show parseP6Rows w (t.length + 1) y
      ⟨encodeRowP6 row ++ (t.map encodeRowP6).flatten, []⟩ = _
    simp only [parseP6Rows]
    rw [hbr]
    dsimp only
    rw [if_neg (by rw [lenT_eq, hel]; omega),
      ih (fun r hr => hlen r (by simp [hr])) (y + 1)]
    dsimp only
    rw [← hrw, bytesToPixels_encodeRowP6]

/-- The last element of a list ending in a nonempty suffix after a marker. -/
theorem getLast?_append_cons (l1 : List Nat) (a : Nat) (l2 : List Nat) :
    (l1 ++ a :: l2).getLast? = (a :: l2).getLast? := by
  rw [List.getLast?_append]
  cases hx : (a :: l2).getLast? with
  | none => exact absurd (List.getLast?_eq_none_iff.mp hx) (by simp)
  | some b => rfl

/-- Trimming a bare rendered decimal is the identity. -/
theorem trimSpace_renderNat (n : Nat) : trimSpace (renderNat n) = renderNat n := by
  apply trimSpace_eq_self
  · intro c hc
    exact isSpace_of_digit (renderNat_digits n c
      (List.mem_of_mem_head? (by rw [hc]; simp)))
  · intro c hc
    exact isSpace_of_digit (renderNat_digits n c
      (List.mem_of_mem_getLast? (by rw [hc]; simp)))

/-- Trimming the rendered dimensions line is the identity. -/
theorem trimSpace_dimsLine (w h : Nat) :
    trimSpace (renderNat w ++ 32 :: renderNat h) =
      renderNat w ++ 32 :: renderNat h := by
  apply trimSpace_eq_self
  · intro c hc
    obtain ⟨b, L, hbl⟩ := List.exists_cons_of_ne_nil (renderNat_ne_nil w)
    rw [hbl, List.cons_append, List.head?_cons, Option.some.injEq] at hc
    subst hc
    exact isSpace_of_digit (renderNat_digits w b (by rw [hbl]; simp))
  · intro c hc
    obtain ⟨b, L, hbl⟩ := List.exists_cons_of_ne_nil (renderNat_ne_nil h)
    rw [hbl, getLast?_append_cons,
      show (32 : Nat) :: b :: L = [32] ++ b :: L from rfl,
      getLast?_append_cons] at hc
    exact isSpace_of_digit (renderNat_digits h c
      (by rw [hbl]; exact List.mem_of_mem_getLast? (by rw [hc]; simp)))

/-- The dimensions line contains no newline. -/
theorem dimsLine_no_newline (w h : Nat) :
    ∀ c ∈ renderNat w ++ 32 :: renderNat h, c ≠ 10 := by
  intro c hc
  rcases List.mem_append.mp hc with hm | hm
  · have := renderNat_digits w c hm
    omega
  rcases List.mem_cons.mp hm with hm | hm
  · omega
  · have := renderNat_digits h c hm
    omega

/-- Rendered decimals contain no newline. -/
theorem renderNat_no_newline (n : Nat) : ∀ c ∈ renderNat n, c ≠ 10 := by
  intro c hc
  have := renderNat_digits n c hc
  omega

/-- The space-headed remainder of the dimensions line starts with a
non-digit. -/
theorem head_space_not_digit (s : List Nat) :
    ∀ c, ((32 : Nat) :: s).head? = some c → isDigit c = false := by
  intro c hc
  rw [List.head?_cons, Option.some.injEq] at hc
  subst hc
  decide

/-- No continuation constraint on an empty rest. -/
theorem head_nil_not_digit :
    ∀ c, ([] : List Nat).head? = some c → isDigit c = false := by
  intro c hc
  cases hc

/-- The 1365×1 all-black binary buffer: its encoded file is 4109 bytes,
just over one 4096-byte `bufio` buffer. -/
def exWideP6 : PPM :=
  ⟨[List.replicate 1365 pixZero], 1365, 1, magicP6, 255⟩

/-- The 14 header bytes `Save` writes for `exWideP6`:
`"P6\n1365 1\n255\n"`. -/
def hdrW : List Nat := [80, 54, 10, 49, 51, 54, 53, 32, 49, 10, 50, 53, 53, 10]

/-- `exWideP6` is a well-formed buffer. -/
theorem exWideP6_wf : exWideP6.Wf := by
  refine ⟨by decide, by decide, by decide, ?_, ?_, by decide, Or.inr rfl⟩
  · intro row hrow
    rw [show exWideP6.data = [List.replicate 1365 pixZero] from rfl,
      List.mem_singleton] at hrow
    subst hrow
    rw [List.length_replicate]
    rfl
  · intro row hrow px hpx
    rw [show exWideP6.data = [List.replicate 1365 pixZero] from rfl,
      List.mem_singleton] at hrow
    subst hrow
    rw [List.eq_of_mem_replicate hpx]
    decide

/-- The encoded bytes of `exWideP6`: the header then the single row's 4095
data bytes. -/
theorem encode_exWideP6 :
    encodePPM exWideP6 = hdrW ++ encodeRowP6 (List.replicate 1365 pixZero) := by
  have h1 : renderNat 1365 = [49, 51, 54, 53] := by decide
  have h2 : renderNat 1 = [49] := by decide
  have h3 : renderNat 255 = [50, 53, 53] := by decide
  unfold encodePPM exWideP6
  simp only [List.map_cons, List.map_nil, List.flatten_cons, List.flatten_nil,
    List.append_nil]
  rw [h1, h2, h3, if_pos trivial]
  rfl

/-- Decoding the complete, valid encode of `exWideP6` fails: the first
buffer fill holds the header and only 4082 of the 4095 row bytes, the row's
`reader.Read` returns just that buffered chunk without refilling, and the
short-read check reports truncation at row 0. -/
theorem readPPM_exWideP6 :
    ReadPPM (encodePPM exWideP6) = .error (.truncated 0) := by
  have hD : (encodeRowP6 (List.replicate 1365 pixZero)).length = 4095 := by
    rw [encodeRowP6_length, List.length_replicate]
  rw [encode_exWideP6]
  generalize hg : encodeRowP6 (List.replicate 1365 pixZero) = D
  rw [hg] at hD
  have htk : (hdrW ++ D).take 4096 = hdrW ++ D.take 4082 := by
    rw [List.take_append_eq_append_take,
      show List.take 4096 hdrW = hdrW from rfl,
      show (4096 - hdrW.length) = 4082 from by decide]
  have hdr : (hdrW ++ D).drop 4096 = D.drop 4082 := by
    rw [List.drop_append_eq_append_drop,
      show List.drop 4096 hdrW = [] from rfl, List.nil_append,
      show (4096 - hdrW.length) = 4082 from by decide]
  have h1 : bufReadString ⟨[], hdrW ++ D⟩ =
      some ([80, 54],
        ⟨[49, 51, 54, 53, 32, 49, 10, 50, 53, 53, 10] ++ D.take 4082,
          D.drop 4082⟩) := by
    have := bufReadString_big (hdrW ++ D) [80, 54]
      ([49, 51, 54, 53, 32, 49, 10, 50, 53, 53, 10] ++ D.take 4082)
      (by rw [List.length_append, hD]; decide)
      (by
        rw [htk]
        exact readLine_append_some hdrW (D.take 4082) [80, 54]
          [49, 51, 54, 53, 32, 49, 10, 50, 53, 53, 10] rfl)
    rwa [hdr] at this
  have h2 : bufReadString
      ⟨[49, 51, 54, 53, 32, 49, 10, 50, 53, 53, 10] ++ D.take 4082,
        D.drop 4082⟩ =
      some ([49, 51, 54, 53, 32, 49],
        ⟨[50, 53, 53, 10] ++ D.take 4082, D.drop 4082⟩) :=
    bufReadString_buffered _ _ _ _
      (readLine_append_some [49, 51, 54, 53, 32, 49, 10, 50, 53, 53, 10]
        (D.take 4082) [49, 51, 54, 53, 32, 49] [50, 53, 53, 10] rfl)
  have h3 : bufReadString ⟨[50, 53, 53, 10] ++ D.take 4082, D.drop 4082⟩ =
      some ([50, 53, 53], ⟨[] ++ D.take 4082, D.drop 4082⟩) :=
    bufReadString_buffered _ _ _ _
      (readLine_append_some [50, 53, 53, 10] (D.take 4082) [50, 53, 53] []
        rfl)
  rw [List.nil_append] at h3
  have hblen : (D.take 4082).length = 4082 := by
    rw [List.length_take, hD]
    omega
  have hbne : D.take 4082 ≠ [] := by
    intro hnil
    rw [hnil] at hblen
    simp at hblen
  have hrow : parseP6Rows 1365 1 0 ⟨D.take 4082, D.drop 4082⟩ =
      .error (.truncated 0) := by
    refine parseP6Rows_step_short 1365 0 0 _ ?_
    rw [bufRead_buf _ _ _ hbne]
    dsimp only
    rw [lenT_eq, List.length_take, hblen]
    decide
  unfold ReadPPM
  rw [h1]
  dsimp only
  rw [show trimSpace [80, 54] = magicP6 from rfl, if_pos (Or.inr rfl)]
  rw [h2]
  dsimp only
  rw [show scanInt (trimSpace [49, 51, 54, 53, 32, 49]) =
      some ((1365 : Int), [32, 49]) from by decide]
  dsimp only
  rw [show scanInt [32, 49] = some ((1 : Int), []) from by decide]
  dsimp only
  rw [if_neg (by decide)]
  rw [h3]
  dsimp only
  rw [show scanU8 (trimSpace [50, 53, 53]) = some (255, []) from by decide]
  dsimp only
  rw [if_neg (by decide),
    show ((1365 : Int)).toNat = 1365 from rfl,
    show ((1 : Int)).toNat = 1 from rfl, hrow]

/-- C1 counterexample: the round-trip claim fails on the program for binary
images larger than the reader's buffer.  `exWideP6` is well formed and
`Save` encodes it, but decoding those 4109 bytes fails: after the header the
buffer holds only 4082 of the row's 4095 data bytes, `reader.Read` returns
just that buffered chunk without refilling, and the row check reports
"unexpected end of file at row 0" on a complete, valid file — so
`Decode(Encode(b))` is an error, not `b`. -/
theorem p6_large_roundtrip_fails :
    exWideP6.Wf
    ∧ exWideP6.Save = some (encodePPM exWideP6)
    ∧ 4096 < (encodePPM exWideP6).length
    ∧ ReadPPM (encodePPM exWideP6) = .error (.truncated 0) := by
  refine ⟨exWideP6_wf, ?_, ?_, readPPM_exWideP6⟩
  · rfl
  · rw [encode_exWideP6, List.length_append, encodeRowP6_length,
      List.length_replicate]
    decide

/-- C1 (amended round trip): for every well-formed buffer, `Save` succeeds
and produces `encodePPM p`, and decoding those bytes yields exactly the
original buffer — width, height, magic number, max intensity and every
pixel — unconditionally for the textual (P3) variant, whose row loop uses
only `ReadString`, and for the binary (P6) variant whenever the encoded
file fits in one 4096-byte buffer fill, so that every `reader.Read` of a
row finds its bytes already buffered. -/
theorem save_then_decode (p : PPM) (hw : p.Wf)
    (hsize : p.magicNumber = magicP6 → (encodePPM p).length ≤ 4096) :
    p.Save = some (encodePPM p) ∧ ReadPPM (encodePPM p) = .ok p := by
  obtain ⟨hw0, hh0, hlen, hrows, hpx, hmax, hmagic⟩ := id hw
  have hscanW : scanInt (renderNat p.width ++ 32 :: renderNat p.height) =
      some ((p.width : Int), 32 :: renderNat p.height) :=
    scanInt_render p.width _ (head_space_not_digit _)
  have hscanH : scanInt (32 :: renderNat p.height) =
      some ((p.height : Int), []) := by
    have := scanInt_space_render p.height [] head_nil_not_digit
    rwa [List.append_nil] at this
  have hscanM : scanU8 (renderNat p.max) = some (p.max, []) := by
    have := scanU8_render p.max hmax [] head_nil_not_digit
    rwa [List.append_nil] at this
  have hdims : ¬((p.width : Int) ≤ 0 ∨ (p.height : Int) ≤ 0) := by omega
  constructor
  · unfold PPM.Save
    rcases hmagic with hm | hm
    · rw [if_pos (Or.inr hm)]
    · rw [if_pos (Or.inl hm)]
  · rcases hmagic with hm | hm
    · -- textual variant: every read is a ReadString, so no size constraint
      have hbody : p.data.map (fun row =>
          if magicP3 = magicP6 then encodeRowP6 row
          else if magicP3 = magicP3 then encodeRowP3 row
          else []) = p.data.map encodeRowP3 :=
        List.map_congr_left (fun row _ => by
          rw [if_neg (by decide), if_pos rfl])
      unfold encodePPM
      rw [hm, hbody]
      unfold ReadPPM
      have hr1 : readLine ([] ++ (magicP3 ++ 10 ::
          (renderNat p.width ++ 32 :: (renderNat p.height ++ 10 ::
            (renderNat p.max ++ 10 ::
              (p.data.map encodeRowP3).flatten))))) =
          some (magicP3, renderNat p.width ++ 32 :: (renderNat p.height ++
            10 :: (renderNat p.max ++ 10 ::
              (p.data.map encodeRowP3).flatten))) := by
        rw [List.nil_append]
        exact readLine_append magicP3 _ (by decide)
      obtain ⟨b1, s1, hc1, he1⟩ := bufReadString_spec _ _ _ _ hr1
      rw [he1]
      dsimp only
      rw [show trimSpace magicP3 = magicP3 from rfl, if_pos (Or.inl rfl)]
      have hr2 : readLine (b1 ++ s1) =
          some (renderNat p.width ++ 32 :: renderNat p.height,
            renderNat p.max ++ 10 :: (p.data.map encodeRowP3).flatten) := by
        rw [hc1,
          show renderNat p.width ++ 32 :: (renderNat p.height ++ 10 ::
              (renderNat p.max ++ 10 :: (p.data.map encodeRowP3).flatten)) =
            (renderNat p.width ++ 32 :: renderNat p.height) ++ 10 ::
              (renderNat p.max ++ 10 :: (p.data.map encodeRowP3).flatten) by
            simp [List.append_assoc]]
        exact readLine_append _ _ (dimsLine_no_newline p.width p.height)
      obtain ⟨b2, s2, hc2, he2⟩ := bufReadString_spec _ _ _ _ hr2
      rw [he2]
      dsimp only
      rw [trimSpace_dimsLine, hscanW]
      dsimp only
      rw [hscanH]
      dsimp only
      rw [if_neg hdims]
      have hr3 : readLine (b2 ++ s2) =
          some (renderNat p.max, (p.data.map encodeRowP3).flatten) := by
        rw [hc2]
        exact readLine_append _ _ (renderNat_no_newline p.max)
      obtain ⟨b3, s3, hc3, he3⟩ := bufReadString_spec _ _ _ _ hr3
      rw [he3]
      dsimp only
      rw [trimSpace_renderNat, hscanM]
      dsimp only
      rw [if_pos rfl, Int.toNat_natCast, Int.toNat_natCast]
      have hp3 : parseP3Rows p.width p.height 0 ⟨b3, s3⟩ = .ok p.data := by
        rw [← hlen]
        exact parseP3Rows_encode p.data p.width hrows hpx 0 b3 s3 hc3
      rw [hp3]
      dsimp only
      rw [← hm]
    · -- binary variant: the whole encoded file is buffered by the first fill
      have hbody : p.data.map (fun row =>
          if magicP6 = magicP6 then encodeRowP6 row
          else if magicP6 = magicP3 then encodeRowP3 row
          else []) = p.data.map encodeRowP6 :=
        List.map_congr_left (fun row _ => by rw [if_pos rfl])
      have hENC : encodePPM p = magicP6 ++ 10 ::
          (renderNat p.width ++ 32 :: (renderNat p.height ++ 10 ::
            (renderNat p.max ++ 10 ::
              (p.data.map encodeRowP6).flatten))) := by
        unfold encodePPM
        rw [hm, hbody]
      have hsz := hsize hm
      rw [hENC] at hsz ⊢
      unfold ReadPPM
      have he1 := bufReadString_start _ _ _ hsz
        (readLine_append magicP6 (renderNat p.width ++ 32 ::
          (renderNat p.height ++ 10 :: (renderNat p.max ++ 10 ::
            (p.data.map encodeRowP6).flatten))) (by decide))
      rw [he1]
      dsimp only
      rw [show trimSpace magicP6 = magicP6 from rfl, if_pos (Or.inr rfl)]
      have he2 := bufReadString_nosrc _ _ _
        (show readLine (renderNat p.width ++ 32 :: (renderNat p.height ++
            10 :: (renderNat p.max ++ 10 ::
              (p.data.map encodeRowP6).flatten))) =
          some (renderNat p.width ++ 32 :: renderNat p.height,
            renderNat p.max ++ 10 ::
              (p.data.map encodeRowP6).flatten) by
          rw [show renderNat p.width ++ 32 :: (renderNat p.height ++ 10 ::
              (renderNat p.max ++ 10 :: (p.data.map encodeRowP6).flatten)) =
            (renderNat p.width ++ 32 :: renderNat p.height) ++ 10 ::
              (renderNat p.max ++ 10 :: (p.data.map encodeRowP6).flatten) by
            simp [List.append_assoc]]
          exact readLine_append _ _ (dimsLine_no_newline p.width p.height))
      rw [he2]
      dsimp only
      rw [trimSpace_dimsLine, hscanW]
      dsimp only
      rw [hscanH]
      dsimp only
      rw [if_neg hdims]
      have he3 := bufReadString_nosrc _ _ _
        (readLine_append (renderNat p.max)
          ((p.data.map encodeRowP6).flatten) (renderNat_no_newline p.max))
      rw [he3]
      dsimp only
      rw [trimSpace_renderNat, hscanM]
      dsimp only
      rw [if_neg (by decide), Int.toNat_natCast, Int.toNat_natCast]
      have hp6 : parseP6Rows p.width p.height 0
          ⟨(p.data.map encodeRowP6).flatten, []⟩ = .ok p.data := by
        rw [← hlen]
        exact parseP6Rows_encode p.data p.width hw0 hrows 0
      rw [hp6]
      dsimp only
      rw [← hm]

/-- Witness: the mixed 2×2 example round-trips through the codec in the
textual variant and in the binary variant (its encode is far below the
4096-byte bound). -/
theorem save_then_decode_witness :
    (exMixedP3.Save = some (encodePPM exMixedP3)
      ∧ ReadPPM (encodePPM exMixedP3) = .ok exMixedP3)
    ∧ (exMixedP6.Save = some (encodePPM exMixedP6)
      ∧ ReadPPM (encodePPM exMixedP6) = .ok exMixedP6) :=
  ⟨save_then_decode exMixedP3 (by decide) (by decide),
   save_then_decode exMixedP6 (by decide) (by decide)⟩

/-! ### C4: comment lines in the header -/

/-- Trimming keeps the leading `'#'` of a comment line. -/
theorem trimSpace_hash (c : List Nat) (h : c.head? = some 35) :
    ∃ t, trimSpace c = 35 :: t := by
  obtain ⟨b, L, rfl⟩ := List.exists_cons_of_ne_nil
    (show c ≠ [] by intro hnil; rw [hnil] at h; cases h)
  rw [List.head?_cons, Option.some.injEq] at h
  subst h
  unfold trimSpace
  rw [List.dropWhile_cons, if_neg (by decide), List.reverse_cons,
    List.dropWhile_append]
  by_cases he : (L.reverse.dropWhile isSpace).isEmpty
  · rw [if_pos he]
    exact ⟨[], by decide⟩
  · rw [if_neg he]
    exact ⟨(L.reverse.dropWhile isSpace).reverse, by
      rw [List.reverse_append]; rfl⟩

/-- A `'#'`-headed string has no leading digit run. -/
theorem scanNatRaw_hash (t : List Nat) : scanNatRaw (35 :: t) = none := by
  have ht : List.takeWhile isDigit (35 :: t) = [] := by
    rw [List.takeWhile_cons, if_neg (by decide)]
  unfold scanNatRaw
  dsimp only
  rw [ht, if_pos rfl]

/-- `skipSpaces` does not move past a `'#'`. -/
theorem skipSpaces_hash (t : List Nat) : skipSpaces (35 :: t) = 35 :: t :=
  dropWhile_eq_self_of_head _ (by
    intro c hc
    rw [List.head?_cons, Option.some.injEq] at hc
    subst hc
    decide)

/-- `%d` scanning of an integer fails on a comment line. -/
theorem scanInt_hash (t : List Nat) : scanInt (35 :: t) = none := by
  unfold scanInt
  dsimp only
  rw [skipSpaces_hash, if_neg (by simp), scanNatRaw_hash]

/-- `%d` scanning of a `uint8` fails on a comment line. -/
theorem scanU8_hash (t : List Nat) : scanU8 (35 :: t) = none := by
  unfold scanU8
  rw [skipSpaces_hash, scanNatRaw_hash]

/-- A comment line is not a magic number. -/
theorem hash_ne_magic (t : List Nat) :
    ¬(35 :: t = magicP3 ∨ 35 :: t = magicP6) := by
  intro h
  rcases h with h | h
  · simp only [magicP3, List.cons.injEq] at h
    omega
  · simp only [magicP6, List.cons.injEq] at h
    omega

/-- A textual header whose dimensions line is replaced by the comment
`"#c"`. -/
def p3CommentInput : List Nat :=
  [80, 51, 10, 35, 99, 10, 49, 32, 49, 10, 50, 53, 53, 10,
   48, 32, 48, 32, 48, 32, 10]

/-- The same input with the comment line removed. -/
def p3PlainInput : List Nat :=
  [80, 51, 10, 49, 32, 49, 10, 50, 53, 53, 10, 48, 32, 48, 32, 48, 32, 10]

/-- C4 counterexample: the claim asserts that decoding an input whose header
interleaves a comment line succeeds and equals the decode of the input with
the comment removed; in fact `ReadPPM` never looks for `'#'`, so the comment
input fails with the invalid-dimensions error while the comment-free input
decodes to the 1×1 buffer. -/
theorem readPPM_comment_not_skipped :
    ReadPPM p3CommentInput = .error .badDimensions
    ∧ ReadPPM p3PlainInput =
        .ok ⟨[[⟨0, 0, 0⟩]], 1, 1, magicP3, 255⟩ :=
  ⟨by decide, by decide⟩

/-- C4 (amended): `ReadPPM` does not skip comment lines anywhere: a line
starting with `'#'` placed where the magic number, the dimensions, or the
max intensity is expected makes decoding fail (invalid magic number, invalid
dimensions, and invalid max value respectively) instead of being skipped. -/
theorem readPPM_comment_line_fails (c rest : List Nat)
    (hhash : c.head? = some 35) (hnl : ∀ b ∈ c, b ≠ 10) :
    ReadPPM (c ++ 10 :: rest) = .error .badMagic
    ∧ ReadPPM (magicP3 ++ 10 :: (c ++ 10 :: rest)) = .error .badDimensions
    ∧ ReadPPM (magicP3 ++ 10 :: ([49, 32, 49] ++ 10 :: (c ++ 10 :: rest))) =
        .error .badMax := by
  obtain ⟨t, htr⟩ := trimSpace_hash c hhash
  refine ⟨?_, ?_, ?_⟩
  · unfold ReadPPM
    have hr1 : readLine ([] ++ (c ++ 10 :: rest)) = some (c, rest) := by
      rw [List.nil_append]
      exact readLine_append c _ hnl
    obtain ⟨b1, s1, hc1, he1⟩ := bufReadString_spec _ _ _ _ hr1
    rw [he1]
    dsimp only
    rw [htr, if_neg (hash_ne_magic t)]
  · unfold ReadPPM
    have hr1 : readLine ([] ++ (magicP3 ++ 10 :: (c ++ 10 :: rest))) =
        some (magicP3, c ++ 10 :: rest) := by
      rw [List.nil_append]
      exact readLine_append magicP3 _ (by decide)
    obtain ⟨b1, s1, hc1, he1⟩ := bufReadString_spec _ _ _ _ hr1
    rw [he1]
    dsimp only
    rw [show trimSpace magicP3 = magicP3 from rfl, if_pos (Or.inl rfl)]
    have hr2 : readLine (b1 ++ s1) = some (c, rest) := by
      rw [hc1]
      exact readLine_append c _ hnl
    obtain ⟨b2, s2, hc2, he2⟩ := bufReadString_spec _ _ _ _ hr2
    rw [he2]
    dsimp only
    rw [htr, scanInt_hash]
  · unfold ReadPPM
    have hr1 : readLine ([] ++ (magicP3 ++ 10 :: ([49, 32, 49] ++ 10 ::
        (c ++ 10 :: rest)))) =
        some (magicP3, [49, 32, 49] ++ 10 :: (c ++ 10 :: rest)) := by
      rw [List.nil_append]
      exact readLine_append magicP3 _ (by decide)
    obtain ⟨b1, s1, hc1, he1⟩ := bufReadString_spec _ _ _ _ hr1
    rw [he1]
    dsimp only
    rw [show trimSpace magicP3 = magicP3 from rfl, if_pos (Or.inl rfl)]
    have hr2 : readLine (b1 ++ s1) = some ([49, 32, 49], c ++ 10 :: rest) := by
      rw [hc1]
      exact readLine_append [49, 32, 49] _ (by decide)
    obtain ⟨b2, s2, hc2, he2⟩ := bufReadString_spec _ _ _ _ hr2
    rw [he2]
    dsimp only
    rw [show trimSpace [49, 32, 49] = [49, 32, 49] from rfl,
      show scanInt [49, 32, 49] = some ((1 : Int), [32, 49]) from by decide]
    dsimp only
    rw [show scanInt [32, 49] = some ((1 : Int), []) from by decide]
    dsimp only
    rw [if_neg (by decide)]
    have hr3 : readLine (b2 ++ s2) = some (c, rest) := by
      rw [hc2]
      exact readLine_append c _ hnl
    obtain ⟨b3, s3, hc3, he3⟩ := bufReadString_spec _ _ _ _ hr3
    rw [he3]
    dsimp only
    rw [htr, scanU8_hash]

/-- Witness: the amended statement at the concrete comment line `"#c"`. -/
theorem readPPM_comment_line_fails_witness :
    ReadPPM ([35, 99] ++ 10 :: [])  = .error .badMagic
    ∧ ReadPPM (magicP3 ++ 10 :: ([35, 99] ++ 10 :: [])) =
        .error .badDimensions
    ∧ ReadPPM (magicP3 ++ 10 ::
        ([49, 32, 49] ++ 10 :: ([35, 99] ++ 10 :: []))) = .error .badMax :=
  readPPM_comment_line_fails [35, 99] [] (by decide) (by decide)
